import Mathlib

/-
Verification development for the audio transcription pipeline.

This file gives a shallow embedding, in Lean 4, of the core algorithms of the
pipeline: the job store (database.py), the file-stability detector
(file_monitor.py), the retry wrapper (deepgram_client.py / openai_client.py),
the collision-safe file placement and the processing orchestration
(processor.py), the filename cleanup and same-person heuristics
(file_namer.py), and the Deepgram transcript formatter (deepgram_client.py).

Python strings are modelled as Lean `String` / `List Char`; character classes
(whitespace, alphanumeric, upper case, word characters) are modelled over the
ASCII fragment with explicit code-point arithmetic, matching Python semantics
on ASCII input.  Machine timestamps are abstract `Nat` instants passed
explicitly.  External effects (API calls, the file system, the database) are
modelled as explicit state: a job store is a function `Nat → Option Job`,
the file system is the list of existing paths, and each external stage of the
pipeline is an environment-provided `Except` outcome.
-/

namespace Transcription

/-! ## Character classes (ASCII models of Python predicates) -/

/-- Python whitespace (`str.split`, `str.strip`, regex `\s`), ASCII fragment:
space, tab, newline, vertical tab, form feed, carriage return. -/
def isWsCh (c : Char) : Bool :=
  c.toNat = 32 || c.toNat = 9 || c.toNat = 10 || c.toNat = 11 || c.toNat = 12 || c.toNat = 13

/-- ASCII alphanumeric (`[A-Za-z0-9]`). -/
def isAlnumCh (c : Char) : Bool :=
  (97 ≤ c.toNat && c.toNat ≤ 122) || (65 ≤ c.toNat && c.toNat ≤ 90) ||
    (48 ≤ c.toNat && c.toNat ≤ 57)

/-- ASCII upper-case letter (Python `str.isupper` on a single ASCII char). -/
def isUpperCh (c : Char) : Bool :=
  65 ≤ c.toNat && c.toNat ≤ 90

/-- Regex word character `\w`, ASCII fragment: alphanumeric or underscore. -/
def isWordCh (c : Char) : Bool :=
  isAlnumCh c || c.toNat = 95

/-! ## Python string helpers on `List Char` -/

/-- Python `str.strip()`: drop leading and trailing whitespace. -/
def trimChars (l : List Char) : List Char :=
  ((l.dropWhile isWsCh).reverse.dropWhile isWsCh).reverse

/-- Python `str.strip()` on strings. -/
def pyStrip (s : String) : String :=
  String.mk (trimChars s.data)

/-- Worker for `splitWords`; `acc` holds the current word reversed. -/
def splitWordsAux : List Char → List Char → List (List Char)
  | [], acc => if acc.isEmpty then [] else [acc.reverse]
  | c :: rest, acc =>
    if isWsCh c then
      if acc.isEmpty then splitWordsAux rest []
      else acc.reverse :: splitWordsAux rest []
    else splitWordsAux rest (c :: acc)

/-- Python `str.split()` with no separator: split on whitespace runs,
discarding empty pieces. -/
def splitWords (l : List Char) : List (List Char) :=
  splitWordsAux l []

/-! ## Job store (`src/core/database.py`) -/

/-- The fields of a `jobs` row touched by `Database.update_job_status`. -/
structure Job where
  status : String
  startedAt : Option Nat
  completedAt : Option Nat
  errorMessage : Option String
deriving DecidableEq, Repr

/-- `Database.update_job_status` (database.py lines 93-119): an SQL `UPDATE`
against one job id.  The status column is always written; `started_at` is
written when the new status is `processing`; `completed_at` is written when
the new status is `completed` or `failed`; `error_message` is written when a
non-empty message is supplied (Python truthiness of the optional argument).
There is no check of the job's current status.  A missing job id leaves the
store unchanged (SQL `UPDATE ... WHERE id = ?` matching no row). -/
def updateJobStatus (store : Nat → Option Job) (jobId : Nat) (status : String)
    (errorMessage : Option String) (now : Nat) : Nat → Option Job :=
  fun id =>
    if id = jobId then
      (store id).map (fun j =>
        let j1 : Job := { j with status := status }
        let j2 : Job :=
          if status = "processing" then { j1 with startedAt := some now }
          else if status = "completed" ∨ status = "failed" then
            { j1 with completedAt := some now }
          else j1
        match errorMessage with
        | some m => if m = "" then j2 else { j2 with errorMessage := some m }
        | none => j2)
    else store id

/-- A store holding a single job, id 1, already in the terminal state
`completed` (with `started_at = 1`, `completed_at = 2`). -/
def terminalStore : Nat → Option Job := fun id =>
  if id = 1 then
    some { status := "completed", startedAt := some 1, completedAt := some 2,
           errorMessage := none }
  else none

/-! ## Job statistics (`Database.get_job_stats`, database.py lines 186-221) -/

/-- Count of jobs with the given status (the `GROUP BY status` counts). -/
def statusCount (jobs : List Job) (s : String) : Nat :=
  jobs.countP (fun j => j.status == s)

/-- Python `round` on a rational: nearest integer, ties to even. -/
def pyRound (q : ℚ) : ℤ :=
  let f : ℤ := ⌊q⌋
  if q - f < 1/2 then f
  else if 1/2 < q - f then f + 1
  else if f % 2 = 0 then f else f + 1

/-- Python `round(x, 1)`: round to one decimal place. -/
def roundTo1 (q : ℚ) : ℚ :=
  (pyRound (q * 10) : ℚ) / 10

/-- The slice of the statistics record relevant to the success rate. -/
structure JobStats where
  total : Nat
  successRate : ℚ
deriving DecidableEq

/-- `Database.get_job_stats`: `success_rate = completed / (completed + failed)
* 100` guarded by `if (completed + failed) > 0`, else `0`, then
`round(success_rate, 1)`. -/
def getJobStats (jobs : List Job) : JobStats :=
  { total := jobs.length
    successRate :=
      if 0 < statusCount jobs "completed" + statusCount jobs "failed" then
        roundTo1 ((statusCount jobs "completed" : ℚ) /
          ((statusCount jobs "completed" : ℚ) + (statusCount jobs "failed" : ℚ)) * 100)
      else 0 }

/-- A job record in the `completed` state with no timestamps. -/
def jobCompleted : Job :=
  { status := "completed", startedAt := none, completedAt := none, errorMessage := none }

/-- A job record in the `failed` state with no timestamps. -/
def jobFailed : Job :=
  { status := "failed", startedAt := none, completedAt := none, errorMessage := none }

/-! ## Same-person heuristic (`IntelligentFileNamer._are_same_person`,
file_namer.py lines 377-405) -/

/-- `name.lower().strip()`: the normalised form compared by
`_are_same_person`. -/
def normOf (name : String) : List Char :=
  trimChars (name.data.map Char.toLower)

/-- The word set (`norm.split()`) used by the subset test of
`_are_same_person`. -/
def wordsOf (name : String) : List (List Char) :=
  splitWords (normOf name)

/-- `IntelligentFileNamer._are_same_person`: equal after normalisation, or
word-set of one a subset of the other, or a single-word name occurring inside
a multi-word name. -/
def areSamePerson (name1 name2 : String) : Bool :=
  let norm1 := normOf name1
  let norm2 := normOf name2
  if norm1 = norm2 then true
  else
    let words1 := wordsOf name1
    let words2 := wordsOf name2
    if words1.all (fun t => words2.contains t) || words2.all (fun t => words1.contains t) then
      true
    else if 1 < words1.length && words2.length = 1 then
      words2.any (fun t => words1.contains t)
    else if 1 < words2.length && words1.length = 1 then
      words1.any (fun t => words2.contains t)
    else false

/-! ## Stability detector (`AudioFileHandler._wait_for_file_stability`,
file_monitor.py lines 71-118) -/

/-- What one poll of the watched file observes: the file is gone, reading the
size raised `OSError`, or the size was read. -/
inductive Obs where
  | missing : Obs
  | err : Obs
  | size : Nat → Obs
deriving DecidableEq, Repr

/-- The three ways `_wait_for_file_stability` returns: `False` because the
file disappeared, `True` because the stability counter reached the required
3 checks, or fall-through after exhausting all polls, carrying the final
`previous_size` (initially `-1`). -/
inductive StabResult where
  | vanished : StabResult
  | stable : StabResult
  | fallback : Int → StabResult
deriving DecidableEq, Repr

/-- The Boolean returned for each `StabResult`: the fallback succeeds exactly
when the final `previous_size` is greater than zero (the lenient
fall-through of lines 108-114). -/
def stabBool : StabResult → Bool
  | .vanished => false
  | .stable => true
  | .fallback p => decide (0 < p)

/-- The poll loop of `_wait_for_file_stability`, instrumented with the number
of polls consumed.  State: `prev` is `previous_size : Int` (initially `-1`),
`cnt` is `stable_count`.  On a size observation equal to `prev` and positive,
the counter increments and the loop returns `True` as soon as it reaches
`required_stable_checks = 3`; any other size observation resets the counter
to zero; an `OSError` resets the counter and leaves `prev` unchanged; a
missing file returns `False` immediately. -/
def stabRun : List Obs → Int → Nat → StabResult × Nat
  | [], prev, _ => (.fallback prev, 0)
  | o :: rest, prev, cnt =>
    match o with
    | .missing => (.vanished, 1)
    | .err =>
      ((stabRun rest prev 0).1, (stabRun rest prev 0).2 + 1)
    | .size n =>
      if (n : Int) = prev ∧ 0 < n then
        if 3 ≤ cnt + 1 then (.stable, 1)
        else ((stabRun rest (n : Int) (cnt + 1)).1, (stabRun rest (n : Int) (cnt + 1)).2 + 1)
      else ((stabRun rest (n : Int) 0).1, (stabRun rest (n : Int) 0).2 + 1)

/-- `_wait_for_file_stability` as a Boolean, over the list of its (at most
`max_checks = 10`) poll observations, starting from `previous_size = -1`,
`stable_count = 0`. -/
def waitForFileStability (polls : List Obs) : Bool :=
  stabBool (stabRun polls (-1) 0).1

/-- Ten polls whose size alternates, so the stability counter never
increments and the loop falls through with `previous_size = 0`. -/
def alternatingPolls : List Obs :=
  [Obs.size 3, Obs.size 0, Obs.size 3, Obs.size 0, Obs.size 3,
   Obs.size 0, Obs.size 3, Obs.size 0, Obs.size 3, Obs.size 0]

/-! ## Retry wrapper (`DeepgramTranscriber._transcribe_with_retry`,
deepgram_client.py lines 70-83; `OpenAIProcessor._process_with_retry`,
openai_client.py lines 277-317, exception branch) -/

/-- The loop `for attempt in range(max_retries)` of the retry wrapper,
reformulated on the number `k` of attempts still available (the current
attempt index is `maxRetries - k`).  The operation `op` maps an attempt
index to its outcome.  Result: the value returned or the exception finally
re-raised (`none` only when `maxRetries = 0` and the loop body never runs,
where the Python function falls through returning `None`), together with the
number of invocations of `op` and the total seconds slept.  On a failed
attempt that is not the last (`attempt < max_retries - 1`), the wrapper
sleeps `2 ^ attempt` seconds and retries; on the last failed attempt it
re-raises the error unchanged. -/
def retryGo {E A : Type} (op : Nat → Except E A) (maxRetries : Nat) :
    Nat → Option (Except E A) × Nat × Nat
  | 0 => (none, 0, 0)
  | k + 1 =>
    match op (maxRetries - (k + 1)) with
    | .ok a => (some (.ok a), 1, 0)
    | .error e =>
      if maxRetries - (k + 1) < maxRetries - 1 then
        ((retryGo op maxRetries k).1, (retryGo op maxRetries k).2.1 + 1,
          (retryGo op maxRetries k).2.2 + 2 ^ (maxRetries - (k + 1)))
      else (some (.error e), 1, 0)

/-- The retry wrapper: run the loop with all `maxRetries` attempts
available. -/
def processWithRetry {E A : Type} (op : Nat → Except E A) (maxRetries : Nat) :
    Option (Except E A) × Nat × Nat :=
  retryGo op maxRetries maxRetries

/-- A deterministically failing operation: attempt `i` raises error `i`. -/
def failingOp : Nat → Except Nat Nat := fun i => Except.error i

/-! ## Collision-safe file placement (`AudioProcessor._move_processed_file`,
processor.py lines 229-255; `AudioProcessor._move_error_file`, lines
257-285).  The file system is modelled as the list of existing paths. -/

/-- The character of a decimal digit. -/
def digitChar (d : Nat) : Char :=
  match d with
  | 0 => '0'
  | 1 => '1'
  | 2 => '2'
  | 3 => '3'
  | 4 => '4'
  | 5 => '5'
  | 6 => '6'
  | 7 => '7'
  | 8 => '8'
  | _ => '9'

/-- The value of a decimal digit character. -/
def digitVal (c : Char) : Nat := c.toNat - 48

/-- The number read back from a digit string (most significant first). -/
def digitsVal (l : List Char) : Nat :=
  l.foldl (fun a c => 10 * a + digitVal c) 0

/-- Fuel-bounded decimal rendering, most significant digit first; the fuel
`n + 1` used by `natStr` always suffices. -/
def natDigitsF : Nat → Nat → List Char
  | 0, _ => []
  | fuel + 1, n =>
    if n < 10 then [digitChar n]
    else natDigitsF fuel (n / 10) ++ [digitChar (n % 10)]

/-- Python `str(n)` for a natural number. -/
def natStr (n : Nat) : String := String.mk (natDigitsF (n + 1) n)

/-- `os.path.join(dir, name)` for a directory without trailing separator. -/
def joinPath (dir name : String) : String := dir ++ "/" ++ name

/-- `os.path.splitext` on a bare file name: split at the last dot, provided
some earlier character of the name is not a dot (so names made of leading
dots, such as `.bashrc`, have no extension). -/
def splitExtChars (l : List Char) : List Char × List Char :=
  let r := l.reverse
  let ext := r.takeWhile (fun c => c != '.')
  if ext.length = r.length then (l, [])
  else if (r.drop (ext.length + 1)).all (fun c => c == '.') then (l, [])
  else (l.take (l.length - ext.length - 1), '.' :: ext.reverse)

/-- `os.path.splitext` on strings. -/
def splitExt (f : String) : String × String :=
  (String.mk (splitExtChars f.data).1, String.mk (splitExtChars f.data).2)

/-- The `counter`-suffixed candidate name `f"{base_name}_{counter}{ext}"`. -/
def suffixName (base ext : String) (k : Nat) : String :=
  base ++ "_" ++ natStr k ++ ext

/-- The `while os.path.exists(destination)` loop of the move helpers,
starting at `counter = k`, bounded by fuel (the fuel `fs.length + 1` used by
`moveDestination` always finds a free candidate first). -/
def findFree (fs : List String) (dir base ext : String) : Nat → Nat → String
  | 0, k => joinPath dir (suffixName base ext k)
  | fuel + 1, k =>
    if joinPath dir (suffixName base ext k) ∈ fs then
      findFree fs dir base ext fuel (k + 1)
    else joinPath dir (suffixName base ext k)

/-- The destination resolution shared by `_move_processed_file` and
`_move_error_file`: the naive `os.path.join(folder, filename)` if free,
otherwise the first free `base_name_{counter}{ext}` with `counter`
incrementing from 1. -/
def moveDestination (fs : List String) (dir filename : String) : String :=
  if joinPath dir filename ∈ fs then
    findFree fs dir (splitExt filename).1 (splitExt filename).2 (fs.length + 1) 1
  else joinPath dir filename

/-! ## Filename cleanup (`IntelligentFileNamer._clean_filename`, file_namer.py
lines 303-317, and `IntelligentFileNamer._fix_duplications`, lines 319-348).

The three duplication regexes `\bre\s+re\b`, `\bwith\s+with\b`,
`\band\s+and\b` (case-insensitive, replacement the lower-case keyword) are
modelled by a character-level scanner with Python `re.sub` semantics:
scan left to right, attempt a match only where the pattern's leading `\b`
holds (previous character absent or not a word character), replace
non-overlapping matches, continue scanning after the end of the matched
text without rescanning the replacement. -/

/-- The characters removed by `re.sub(r'[<>:"/\\|?*]', '', ...)`. -/
def invalidChars : List Char := ['<', '>', ':', '"', '/', '\\', '|', '?', '*']

/-- `re.sub(r'\s+', ' ', ...)`: every whitespace run becomes one space.
`inWs` records whether the scanner is inside a whitespace run. -/
def collapseWsAux : Bool → List Char → List Char
  | _, [] => []
  | inWs, c :: rest =>
    if isWsCh c then
      if inWs then collapseWsAux true rest
      else ' ' :: collapseWsAux true rest
    else c :: collapseWsAux false rest

/-- Case-insensitive match of the (lower-case) keyword against a prefix of
the input; returns the rest of the input on success. -/
def matchCI : List Char → List Char → Option (List Char)
  | [], s => some s
  | _ :: _, [] => none
  | k :: ks, c :: cs => if c.toLower = k then matchCI ks cs else none

/-- Drop a whitespace run. -/
def dropWs (l : List Char) : List Char := l.dropWhile isWsCh

/-- Attempt to match `kw \s+ kw \b` at the head of the input (the leading
`\b` is the caller's responsibility).  Returns the input after the matched
text on success. -/
def tryMatchPair (kw s : List Char) : Option (List Char) :=
  match matchCI kw s with
  | none => none
  | some s1 =>
    match s1 with
    | [] => none
    | c :: cs =>
      if isWsCh c then
        match matchCI kw (dropWs cs) with
        | none => none
        | some s3 =>
          match s3 with
          | [] => some []
          | d :: _ => if isWordCh d then none else some s3
      else none

/-- Does a match attempt start here?  The pattern's leading `\b` holds when
there is no previous character or the previous character is not a word
character (the keyword's first character is a letter). -/
def prevBoundary : Option Char → Bool
  | none => true
  | some c => !(isWordCh c)

/-- The `re.sub` scan, bounded by fuel (one unit per character position; the
fuel `s.length` used by `subKw` always suffices).  After a replacement the
scan continues with the previous character being the last character of the
matched text; only its word-character status matters, and that character is
a case variant of the keyword's last letter, so `kw.getLastD` stands in for
it. -/
def subKwF (kw : List Char) : Nat → Option Char → List Char → List Char
  | 0, _, s => s
  | _ + 1, _, [] => []
  | fuel + 1, prev, c :: rest =>
    if prevBoundary prev then
      match tryMatchPair kw (c :: rest) with
      | some s3 => kw ++ subKwF kw fuel (some (kw.getLastD 'e')) s3
      | none => c :: subKwF kw fuel (some c) rest
    else c :: subKwF kw fuel (some c) rest

/-- `re.sub(rf'\b{kw}\s+{kw}\b', kw, s, flags=re.IGNORECASE)`. -/
def subKw (kw : List Char) (s : List Char) : List Char :=
  subKwF kw s.length none s

/-- Python `str.lower()` on a word. -/
def lowerW (w : List Char) : List Char := w.map Char.toLower

/-- The words excluded from the proper-noun duplicate rule. -/
def stopWords : List (List Char) :=
  ["re", "with", "and", "the", "a", "an", "of", "in", "on", "at"].map String.data

/-- The always-collapse connective words. -/
def connectiveWords : List (List Char) :=
  ["re", "with", "and"].map String.data

/-- Is the first character an upper-case letter (`word[0].isupper()`)? -/
def headIsUpper : List Char → Bool
  | [] => false
  | c :: _ => isUpperCh c

/-- The skip condition of the word loop of `_fix_duplications`: the word
equals its predecessor case-insensitively, and either looks like a proper
noun (not a stop word, longer than two characters, capitalised) or is one of
the connective words. -/
def skipDup (prevW w : List Char) : Bool :=
  decide (lowerW w = lowerW prevW) &&
    ((!(decide (lowerW w ∈ stopWords)) && decide (2 < w.length) && headIsUpper w) ||
      decide (lowerW w ∈ connectiveWords))

/-- The word loop after its first word; `prevW` is always the previous word
of the original list (`words[i-1]`), whether or not it was kept. -/
def dedupAux : List Char → List (List Char) → List (List Char)
  | _, [] => []
  | prevW, w :: ws =>
    if skipDup prevW w then dedupAux w ws else w :: dedupAux w ws

/-- The word loop of `_fix_duplications` (the first word is always kept). -/
def dedupWords : List (List Char) → List (List Char)
  | [] => []
  | w :: ws => w :: dedupAux w ws

/-- `' '.join(words)`. -/
def renderWords : List (List Char) → List Char
  | [] => []
  | [t] => t
  | t :: ts => t ++ ' ' :: renderWords ts

/-- `IntelligentFileNamer._fix_duplications`: the three connective regexes in
order, then the word loop. -/
def fixDuplications (s : List Char) : List Char :=
  renderWords (dedupWords (splitWords
    (subKw "and".data (subKw "with".data (subKw "re".data s)))))

/-- `filename[:200].rsplit(' ', 1)[0]`: everything before the last space, or
the whole string when it has no space. -/
def rsplitKeep (p : List Char) : List Char :=
  if ' ' ∈ p then (((p.reverse).dropWhile (fun c => c != ' ')).drop 1).reverse
  else p

/-- The length cap of `_clean_filename`: over-long names are cut to 200
characters at the last whitespace boundary. -/
def truncate200 (l : List Char) : List Char :=
  if 200 < l.length then rsplitKeep (l.take 200) else l

/-- `IntelligentFileNamer._clean_filename`: remove invalid characters,
collapse whitespace runs, strip, fix duplications, truncate. -/
def cleanChars (s : List Char) : List Char :=
  truncate200 (fixDuplications (trimChars (collapseWsAux false
    (s.filter (fun c => !(decide (c ∈ invalidChars)))))))

/-- `_clean_filename` on strings. -/
def cleanFilename (s : String) : String :=
  String.mk (cleanChars s.data)

/-- Proof support: the character alphabet of the restricted idempotence
theorem — ASCII letters and digits, plus the space. -/
def goodCh (c : Char) : Prop := isAlnumCh c = true ∨ c = ' '

/-- Proof support: well-formed token lists — every token non-empty and
alphanumeric. -/
def tokensGood (ts : List (List Char)) : Prop :=
  ∀ t ∈ ts, t ≠ [] ∧ ∀ c ∈ t, isAlnumCh c = true

/-- Proof support: no adjacent word pair triggers the word-loop skip. -/
def skipFree (ts : List (List Char)) : Prop :=
  List.Chain' (fun a b => skipDup a b = false) ts

/-- Proof support: a well-formed keyword — non-empty, lower-case ASCII
letters (or digits), fixed by `Char.toLower`. -/
def kwSpec (kw : List Char) : Prop :=
  kw ≠ [] ∧ ∀ c ∈ kw, isAlnumCh c = true ∧ c.toLower = c

/-- Proof support: the previous-character state of the scanner after copying
a chunk `w`. -/
def prevAfter (w : List Char) (prev : Option Char) : Option Char :=
  match w.getLast? with
  | some c => some c
  | none => prev

/-! ## Deepgram transcript formatter
(`DeepgramTranscriber._format_transcript`, deepgram_client.py lines 85-155) -/

/-- A word entry of a Deepgram response; `speaker` is `none` when the entry
has no `speaker` attribute. -/
structure DGWord where
  word : String
  speaker : Option Int
deriving DecidableEq, Repr

/-- A diarized paragraph: a speaker id and either word entries or sentence
texts. -/
structure DGParagraph where
  speaker : Int
  words : List DGWord
  sentences : List String
deriving DecidableEq, Repr

/-- One transcription alternative; `paragraphs = none` models a response
whose alternative has no paragraphs object, `transcript = none` one without
a `transcript` attribute. -/
structure DGAlternative where
  paragraphs : Option (List DGParagraph)
  words : List DGWord
  transcript : Option String
deriving DecidableEq, Repr

/-- One audio channel of the response. -/
structure DGChannel where
  alternatives : List DGAlternative
deriving DecidableEq, Repr

/-- The `results` object of the response. -/
structure DGResults where
  channels : List DGChannel
deriving DecidableEq, Repr

/-- A Deepgram response; `results = none` models a falsy `results`. -/
structure DGResponse where
  results : Option DGResults
deriving DecidableEq, Repr

/-- Python `str(i)` for an integer speaker id. -/
def intStr (i : Int) : String :=
  if i < 0 then "-" ++ natStr i.natAbs else natStr i.natAbs

/-- `" ".join(l)`. -/
def joinSpace (l : List String) : String :=
  String.intercalate " " l

/-- The speaker-labelled utterance format. -/
def speakerLabel (i : Int) (text : String) : String :=
  "[Speaker " ++ intStr i ++ "]: " ++ text

/-- One paragraph's contribution: word texts joined by spaces when word
entries exist, else sentence texts; dropped when blank. -/
def paragraphLine (p : DGParagraph) : Option String :=
  let text := if p.words ≠ [] then joinSpace (p.words.map DGWord.word)
    else joinSpace p.sentences
  if pyStrip text = "" then none else some (speakerLabel p.speaker text)

/-- One step of the word-level fallback loop; the state is
`(current_speaker, current_utterance, full_transcript)` with
`current_speaker` initially `-1`. -/
def wordFoldStep (st : Int × List String × List String) (w : DGWord) :
    Int × List String × List String :=
  match w.speaker with
  | some s =>
    if s ≠ st.1 then
      (s, [w.word],
        if st.2.1 ≠ [] ∧ st.1 ≠ -1
        then st.2.2 ++ [speakerLabel st.1 (joinSpace st.2.1)]
        else st.2.2)
    else (st.1, st.2.1 ++ [w.word], st.2.2)
  | none => (st.1, st.2.1 ++ [w.word], st.2.2)

/-- The word-level fallback: fold the words, then flush the final
utterance. -/
def wordLines (ws : List DGWord) : List String :=
  let st := ws.foldl wordFoldStep ((-1 : Int), ([] : List String), ([] : List String))
  if st.2.1 ≠ [] ∧ st.1 ≠ -1
  then st.2.2 ++ [speakerLabel st.1 (joinSpace st.2.1)]
  else st.2.2

/-- The `elif alternative.words` / `else` fall-through of the formatter. -/
def altFallbackLines (alt : DGAlternative) : List String :=
  if alt.words ≠ [] then wordLines alt.words
  else
    match alt.transcript with
    | some t => [t]
    | none => []

/-- The lines contributed by one alternative: the paragraph branch when a
non-empty paragraph list exists, otherwise the fallbacks. -/
def altLines (alt : DGAlternative) : List String :=
  match alt.paragraphs with
  | some ps => if ps ≠ [] then ps.filterMap paragraphLine else altFallbackLines alt
  | none => altFallbackLines alt

/-- All lines of `full_transcript`, over every channel and alternative. -/
def assembleLines (res : DGResults) : List String :=
  (res.channels.map (fun ch => (ch.alternatives.map altLines).flatten)).flatten

/-- `"\n\n".join(full_transcript)`. -/
def assembleTranscript (res : DGResults) : String :=
  String.intercalate "\n\n" (assembleLines res)

/-- `_format_transcript`: empty string when `results` is falsy or the channel
list is empty; otherwise the assembled transcript, replaced by the fixed
sentinel when blank. -/
def formatTranscript (r : DGResponse) : String :=
  match r.results with
  | none => ""
  | some res =>
    if res.channels = [] then ""
    else
      if pyStrip (assembleTranscript res) = "" then "No speech detected in audio file."
      else assembleTranscript res

/-- A well-formed response whose `results.channels` list is empty. -/
def emptyChannelsResponse : DGResponse := { results := some { channels := [] } }

/-- A response with one channel and no alternatives: the assembled transcript
is blank. -/
def silentResponse : DGResponse :=
  { results := some { channels := [{ alternatives := [] }] } }

/-! ## Pipeline orchestration (`AudioProcessor.process_file`, processor.py
lines 22-138).  External stages are environment-provided outcomes; stages
whose Python implementation catches all exceptions internally (duration
extraction, name generation) are represented only by their step marker. -/

/-- The outcomes of the external stages of one `process_file` run. -/
structure PipelineEnv where
  validateOk : Bool
  transcribe : Except String String
  summary : Except String String
  naming : Except String String
  saveOutput : Except String String
  processedFolder : Option String
  errorFolder : Option String
  fs : List String

/-- `os.path.basename` (POSIX separators). -/
def baseName (p : String) : String :=
  (p.splitOn "/").getLastD p

/-- `AudioProcessor._move_error_file`: nothing to do when the file no longer
exists or no error folder is configured; otherwise resolve a collision-free
destination under the error folder. -/
def moveErrorFile (fs : List String) (filePath : String) (errorFolder : Option String) :
    Option String :=
  if filePath ∈ fs then
    match errorFolder with
    | none => none
    | some ef => some (moveDestination fs ef (baseName filePath))
  else none

/-- `AudioProcessor._move_processed_file`: warn and keep the file in place
when no processed folder is configured; otherwise resolve a collision-free
destination under the processed folder. -/
def moveProcessedFile (fs : List String) (filePath : String)
    (processedFolder : Option String) : Option String :=
  match processedFolder with
  | none => none
  | some pf => some (moveDestination fs pf (baseName filePath))

/-- The observable outcome of one `process_file` run: the returned Boolean,
the job store after the run (the run's job has id 1), where the source file
was moved, and which steps of the pipeline executed. -/
structure PipelineResult where
  success : Bool
  store : Nat → Option Job
  movedTo : Option String
  steps : List String

/-- The store after `create_job` (status `pending`) and the immediate
`update_job_status(job_id, 'processing')`. -/
def startedStore (now : Nat) : Nat → Option Job :=
  updateJobStatus
    (fun id =>
      if id = 1 then
        some { status := "pending", startedAt := none, completedAt := none,
               errorMessage := none }
      else none)
    1 "processing" none now

/-- `AudioProcessor.process_file`: create the job, mark it processing,
validate, transcribe (hard failure on an empty or whitespace-only
transcript), summarise, extract naming, save the output, move the processed
file, and mark completed; any raising stage jumps to the `except` handler,
which marks the job failed with `"Processing failed: <error>"` and moves the
source file to the error folder. -/
def processFile (env : PipelineEnv) (filePath : String) (now : Nat) : PipelineResult :=
  if env.validateOk = false then
    { success := false
      store := updateJobStatus (startedStore now) 1 "failed" (some "File validation failed") now
      movedTo := none
      steps := ["create_job", "validate"] }
  else
    match env.transcribe with
    | .error e =>
      { success := false
        store := updateJobStatus (startedStore now) 1 "failed"
          (some ("Processing failed: " ++ e)) now
        movedTo := moveErrorFile env.fs filePath env.errorFolder
        steps := ["create_job", "validate", "transcribe"] }
    | .ok transcript =>
      if transcript = "" ∨ pyStrip transcript = "" then
        { success := false
          store := updateJobStatus (startedStore now) 1 "failed"
            (some "Processing failed: Empty transcript received from Deepgram") now
          movedTo := moveErrorFile env.fs filePath env.errorFolder
          steps := ["create_job", "validate", "transcribe"] }
      else
        match env.summary with
        | .error e =>
          { success := false
            store := updateJobStatus (startedStore now) 1 "failed"
              (some ("Processing failed: " ++ e)) now
            movedTo := moveErrorFile env.fs filePath env.errorFolder
            steps := ["create_job", "validate", "transcribe", "metadata", "summary"] }
        | .ok _ =>
          match env.naming with
          | .error e =>
            { success := false
              store := updateJobStatus (startedStore now) 1 "failed"
                (some ("Processing failed: " ++ e)) now
              movedTo := moveErrorFile env.fs filePath env.errorFolder
              steps := ["create_job", "validate", "transcribe", "metadata", "summary",
                "naming"] }
          | .ok _ =>
            match env.saveOutput with
            | .error e =>
              { success := false
                store := updateJobStatus (startedStore now) 1 "failed"
                  (some ("Processing failed: " ++ e)) now
                movedTo := moveErrorFile env.fs filePath env.errorFolder
                steps := ["create_job", "validate", "transcribe", "metadata", "summary",
                  "naming", "generate_name", "save_output"] }
            | .ok _ =>
              { success := true
                store := updateJobStatus (startedStore now) 1 "completed" none now
                movedTo := moveProcessedFile env.fs filePath env.processedFolder
                steps := ["create_job", "validate", "transcribe", "metadata", "summary",
                  "naming", "generate_name", "save_output", "move_processed"] }

/-- An environment whose transcription stage returns the empty string. -/
def emptyTranscriptEnv : PipelineEnv :=
  { validateOk := true
    transcribe := Except.ok ""
    summary := Except.ok "sum"
    naming := Except.ok "name"
    saveOutput := Except.ok "out/doc.md"
    processedFolder := some "proc"
    errorFolder := some "err"
    fs := ["watch/a.mp3"] }

/-! ## Theorems for claims C1, C8, C10 -/

/-- C1 (counterexample): the store does not reject or ignore status writes
against a job already in a terminal state.  Job 1 of `terminalStore` is
`completed`, yet a subsequent `update_job_status(1, "processing")` overwrites
both its status and its `started_at` timestamp. -/
theorem updateJobStatus_overwrites_terminal :
    (terminalStore 1).map Job.status = some "completed" ∧
    (updateJobStatus terminalStore 1 "processing" none 5 1).map Job.status =
      some "processing" ∧
    updateJobStatus terminalStore 1 "processing" none 5 1 ≠ terminalStore 1 := by
  refine ⟨rfl, rfl, ?_⟩
  decide

/-- C1 (amended): `update_job_status` applies every status write
unconditionally; in particular a job already in a terminal state
(`completed` or `failed`) has its stored status replaced by any later
write. -/
theorem updateJobStatus_unconditional (store : Nat → Option Job) (jobId : Nat)
    (j : Job) (s : String) (em : Option String) (now : Nat)
    (hj : store jobId = some j)
    (_hterm : j.status = "completed" ∨ j.status = "failed") :
    (updateJobStatus store jobId s em now jobId).map Job.status = some s := by
  unfold updateJobStatus
  rw [if_pos rfl, hj]
  cases em with
  | none => simp only [Option.map_some]; split_ifs <;> rfl
  | some m => simp only [Option.map_some]; split_ifs <;> rfl

/-- C1 (witness): the amended theorem applied to `terminalStore`. -/
theorem updateJobStatus_unconditional_witness :
    (updateJobStatus terminalStore 1 "failed" (some "boom") 5 1).map Job.status =
      some "failed" :=
  updateJobStatus_unconditional terminalStore 1
    { status := "completed", startedAt := some 1, completedAt := some 2,
      errorMessage := none }
    "failed" (some "boom") 5 rfl (Or.inl rfl)

/-- C8: whenever the lowercased whitespace-split word set of one name is a
subset of the word set of the other, `_are_same_person` returns `True`. -/
theorem areSamePerson_of_subset (a b : String)
    (h : (∀ t ∈ wordsOf a, t ∈ wordsOf b) ∨ (∀ t ∈ wordsOf b, t ∈ wordsOf a)) :
    areSamePerson a b = true := by
  unfold areSamePerson
  by_cases hn : normOf a = normOf b
  · simp [hn]
  · simp only [hn, if_false, if_neg hn]
    simp
    exact Or.inl h

/-- C8 (witness): `"Fox"` and `"Michael Fox"` are classified as the same
person. -/
theorem areSamePerson_witness : areSamePerson "Fox" "Michael Fox" = true :=
  areSamePerson_of_subset "Fox" "Michael Fox" (Or.inl (by decide))

/-- C10: the statistics computation never divides by zero: when there are no
completed and no failed jobs the success rate is `0`; otherwise it is
`completed / (completed + failed) * 100` rounded to one decimal place. -/
theorem getJobStats_successRate (jobs : List Job) :
    (statusCount jobs "completed" + statusCount jobs "failed" = 0 →
      (getJobStats jobs).successRate = 0) ∧
    (0 < statusCount jobs "completed" + statusCount jobs "failed" →
      (getJobStats jobs).successRate =
        roundTo1 ((statusCount jobs "completed" : ℚ) /
          ((statusCount jobs "completed" : ℚ) + (statusCount jobs "failed" : ℚ)) * 100)) := by
  have hrate : (getJobStats jobs).successRate =
      if 0 < statusCount jobs "completed" + statusCount jobs "failed" then
        roundTo1 ((statusCount jobs "completed" : ℚ) /
          ((statusCount jobs "completed" : ℚ) + (statusCount jobs "failed" : ℚ)) * 100)
      else 0 := rfl
  constructor
  · intro h
    rw [hrate, if_neg (by omega)]
  · intro h
    rw [hrate, if_pos h]

/-- C10 (witness): one completed and one failed job. -/
theorem getJobStats_successRate_witness :
    0 < statusCount [jobCompleted, jobFailed] "completed" +
      statusCount [jobCompleted, jobFailed] "failed" ∧
    (getJobStats [jobCompleted, jobFailed]).successRate =
      roundTo1 ((statusCount [jobCompleted, jobFailed] "completed" : ℚ) /
        ((statusCount [jobCompleted, jobFailed] "completed" : ℚ) +
          (statusCount [jobCompleted, jobFailed] "failed" : ℚ)) * 100) :=
  ⟨by decide, (getJobStats_successRate _).2 (by decide)⟩

/-! ## Theorems for claims C4, C5 -/

/-- Unfolding `stabRun` over a size observation. -/
theorem stabRun_size_step (m : Nat) (rest : List Obs) (prev : Int) (cnt : Nat) :
    stabRun (Obs.size m :: rest) prev cnt =
      if (m : Int) = prev ∧ 0 < m then
        if 3 ≤ cnt + 1 then (StabResult.stable, 1)
        else ((stabRun rest (m : Int) (cnt + 1)).1, (stabRun rest (m : Int) (cnt + 1)).2 + 1)
      else ((stabRun rest (m : Int) 0).1, (stabRun rest (m : Int) 0).2 + 1) := rfl

/-- Unfolding `stabRun` over an `OSError` observation. -/
theorem stabRun_err_step (rest : List Obs) (prev : Int) (cnt : Nat) :
    stabRun (Obs.err :: rest) prev cnt =
      ((stabRun rest prev 0).1, (stabRun rest prev 0).2 + 1) := rfl

/-- Three consecutive polls of the same positive size `s`, entered with
`previous_size = s`, always return `stable` within three polls, whatever the
counter value. -/
theorem stabRun_three (s : Nat) (hs : 0 < s) (rest : List Obs) (cnt : Nat) :
    (stabRun (Obs.size s :: Obs.size s :: Obs.size s :: rest) (s : Int) cnt).1 =
      StabResult.stable ∧
    (stabRun (Obs.size s :: Obs.size s :: Obs.size s :: rest) (s : Int) cnt).2 ≤ 3 := by
  rw [stabRun_size_step, if_pos ⟨rfl, hs⟩]
  by_cases h1 : 3 ≤ cnt + 1
  · rw [if_pos h1]
    exact ⟨rfl, by decide⟩
  · rw [if_neg h1, stabRun_size_step, if_pos ⟨rfl, hs⟩]
    by_cases h2 : 3 ≤ cnt + 1 + 1
    · rw [if_pos h2]
      exact ⟨rfl, by decide⟩
    · rw [if_neg h2, stabRun_size_step, if_pos ⟨rfl, hs⟩,
        if_pos (by omega : 3 ≤ cnt + 1 + 1 + 1)]
      exact ⟨rfl, by decide⟩

/-- A run of `n ≥ 3` consecutive polls of the same positive size `s`, entered
with `previous_size = s`, returns `stable` within `n` polls. -/
theorem stabRun_run (s : Nat) (hs : 0 < s) (n : Nat) (hn : 3 ≤ n) (rest : List Obs)
    (cnt : Nat) :
    (stabRun (List.replicate n (Obs.size s) ++ rest) (s : Int) cnt).1 =
      StabResult.stable ∧
    (stabRun (List.replicate n (Obs.size s) ++ rest) (s : Int) cnt).2 ≤ n := by
  obtain ⟨m, rfl⟩ : ∃ m, n = 3 + m := ⟨n - 3, by omega⟩
  have hrep : List.replicate (3 + m) (Obs.size s) ++ rest =
      Obs.size s :: Obs.size s :: Obs.size s ::
        (List.replicate m (Obs.size s) ++ rest) := by
    rw [List.replicate_add]
    simp [List.replicate]
  rw [hrep]
  have h := stabRun_three s hs (List.replicate m (Obs.size s) ++ rest) cnt
  exact ⟨h.1, by omega⟩

/-- Entering a poll of positive size `s` followed by a run of `n ≥ 3` equal
polls, from any loop state, returns `stable` within `1 + n` polls. -/
theorem stabRun_enter (s : Nat) (hs : 0 < s) (n : Nat) (hn : 3 ≤ n) (rest : List Obs)
    (prev : Int) (cnt : Nat) :
    (stabRun (Obs.size s :: (List.replicate n (Obs.size s) ++ rest)) prev cnt).1 =
      StabResult.stable ∧
    (stabRun (Obs.size s :: (List.replicate n (Obs.size s) ++ rest)) prev cnt).2 ≤
      1 + n := by
  rw [stabRun_size_step]
  by_cases hc : ((s : Int) = prev ∧ 0 < s)
  · rw [if_pos hc]
    by_cases h1 : 3 ≤ cnt + 1
    · rw [if_pos h1]
      exact ⟨rfl, by omega⟩
    · rw [if_neg h1]
      have h := stabRun_run s hs n hn rest (cnt + 1)
      exact ⟨h.1, by omega⟩
  · rw [if_neg hc]
    have h := stabRun_run s hs n hn rest 0
    exact ⟨h.1, by omega⟩

/-- Prefixing any polls during which the file never goes missing preserves
the guaranteed `stable` verdict, consuming at most the prefix plus `1 + n`
polls. -/
theorem stabRun_pre (s : Nat) (hs : 0 < s) (n : Nat) (hn : 3 ≤ n) (rest : List Obs)
    (pre : List Obs) (hpre : Obs.missing ∉ pre) (prev : Int) (cnt : Nat) :
    (stabRun (pre ++ Obs.size s :: (List.replicate n (Obs.size s) ++ rest)) prev cnt).1 =
      StabResult.stable ∧
    (stabRun (pre ++ Obs.size s :: (List.replicate n (Obs.size s) ++ rest)) prev cnt).2 ≤
      pre.length + (1 + n) := by
  induction pre generalizing prev cnt with
  | nil =>
    have h := stabRun_enter s hs n hn rest prev cnt
    simpa using h
  | cons o pre ih =>
    have hm' : Obs.missing ∉ pre := by
      intro hmem
      exact hpre (List.mem_cons_of_mem o hmem)
    have ho : o ≠ Obs.missing := by
      intro he
      apply hpre
      rw [he]
      exact List.mem_cons_self _ _
    cases o with
    | missing => exact absurd rfl ho
    | err =>
      have h := ih hm' prev 0
      rw [List.cons_append, stabRun_err_step]
      refine ⟨h.1, ?_⟩
      have h2 := h.2
      simp only [List.length_cons]
      omega
    | size m =>
      rw [List.cons_append, stabRun_size_step]
      by_cases hc : ((m : Int) = prev ∧ 0 < m)
      · rw [if_pos hc]
        by_cases h1 : 3 ≤ cnt + 1
        · rw [if_pos h1]
          exact ⟨rfl, by simp only [List.length_cons]; omega⟩
        · rw [if_neg h1]
          have h := ih hm' (m : Int) (cnt + 1)
          refine ⟨h.1, ?_⟩
          have h2 := h.2
          simp only [List.length_cons]
          omega
      · rw [if_neg hc]
        have h := ih hm' (m : Int) 0
        refine ⟨h.1, ?_⟩
        have h2 := h.2
        simp only [List.length_cons]
        omega

/-- C5: if the file exists at every poll and, after any prefix, some poll
observes a positive size `s` followed by `n ≥ 3` consecutive polls each
observing the same size `s` (equal to the previous observation and greater
than zero), the detector returns `Stable` no later than the `n`-th such
poll: at most `pre.length + 1 + n` polls are consumed, whatever comes
afterwards. -/
theorem stability_within_run (pre rest : List Obs) (s n : Nat)
    (hs : 0 < s) (hn : 3 ≤ n) (hpre : Obs.missing ∉ pre) :
    (stabRun (pre ++ Obs.size s :: (List.replicate n (Obs.size s) ++ rest)) (-1) 0).1 =
      StabResult.stable ∧
    (stabRun (pre ++ Obs.size s :: (List.replicate n (Obs.size s) ++ rest)) (-1) 0).2 ≤
      pre.length + 1 + n ∧
    waitForFileStability (pre ++ Obs.size s :: (List.replicate n (Obs.size s) ++ rest)) =
      true := by
  have h := stabRun_pre s hs n hn rest pre hpre (-1) 0
  refine ⟨h.1, by omega, ?_⟩
  unfold waitForFileStability
  rw [h.1]
  rfl

/-- C5 (witness): the run `[2, 2, 2, 2, 2]` followed by a vanishing file is
declared stable (within 5 polls) before the vanish is ever observed. -/
theorem stability_within_run_witness :
    (stabRun ([Obs.size 2] ++ Obs.size 2 ::
        (List.replicate 3 (Obs.size 2) ++ [Obs.missing])) (-1) 0).1 =
      StabResult.stable ∧
    (stabRun ([Obs.size 2] ++ Obs.size 2 ::
        (List.replicate 3 (Obs.size 2) ++ [Obs.missing])) (-1) 0).2 ≤ 5 ∧
    waitForFileStability ([Obs.size 2] ++ Obs.size 2 ::
        (List.replicate 3 (Obs.size 2) ++ [Obs.missing])) = true :=
  stability_within_run [Obs.size 2] [Obs.missing] 2 3 (by decide) (by decide) (by decide)

/-- C4: when all polls are exhausted without the counter reaching 3 (the
fall-through case, result `fallback p` with `p` the final `previous_size`),
the detector succeeds precisely when that last observed size is greater than
zero. -/
theorem waitForFileStability_fallback (polls : List Obs) (p : Int)
    (_hlen : polls.length = 10)
    (hfb : (stabRun polls (-1) 0).1 = StabResult.fallback p) :
    (waitForFileStability polls = true ↔ 0 < p) := by
  unfold waitForFileStability
  rw [hfb]
  simp [stabBool]

/-- C4 (witness): ten alternating polls never increment the counter; the
final observed size is `0`, so the fall-through fails. -/
theorem waitForFileStability_fallback_witness :
    alternatingPolls.length = 10 ∧
    (stabRun alternatingPolls (-1) 0).1 = StabResult.fallback 0 ∧
    waitForFileStability alternatingPolls = false := by
  refine ⟨rfl, by decide, ?_⟩
  have h := waitForFileStability_fallback alternatingPolls 0 rfl (by decide)
  cases hw : waitForFileStability alternatingPolls
  · rfl
  · exact absurd (h.mp hw) (by decide)

/-! ## Theorems for claim C3 -/

/-- The loop with `k` attempts available invokes the operation at most `k`
times. -/
theorem retryGo_calls_le {E A : Type} (op : Nat → Except E A) (m : Nat) :
    ∀ k, (retryGo op m k).2.1 ≤ k := by
  intro k
  induction k with
  | zero => simp [retryGo]
  | succ k ih =>
    rw [retryGo]
    cases op (m - (k + 1)) with
    | ok a => simp
    | error e =>
      dsimp only
      by_cases hlast : m - (k + 1) < m - 1
      · rw [if_pos hlast]
        simpa using Nat.add_le_add_right ih 1
      · rw [if_neg hlast]
        simp

/-- On an always-failing operation, the loop with `1 ≤ k ≤ m` attempts left
performs exactly `k` calls, sleeps `2^(m-1) - 2^(m-k)` seconds in total, and
ends with the error of the final attempt `m - 1`. -/
theorem retryGo_allfail {E A : Type} (op : Nat → Except E A) (e : Nat → E) (m : Nat)
    (hfail : ∀ i, i < m → op i = Except.error (e i)) :
    ∀ k, 1 ≤ k → k ≤ m →
      retryGo op m k = (some (Except.error (e (m - 1))), k, 2 ^ (m - 1) - 2 ^ (m - k)) := by
  intro k
  induction k with
  | zero => intro h; omega
  | succ k ih =>
    intro _ hkm
    have hidx : m - (k + 1) < m := by omega
    rw [retryGo, hfail (m - (k + 1)) hidx]
    dsimp only
    by_cases hlast : m - (k + 1) < m - 1
    · have hk1 : 1 ≤ k := by omega
      have hrec := ih hk1 (by omega)
      rw [if_pos hlast, hrec]
      have harith : 2 ^ (m - 1) - 2 ^ (m - k) + 2 ^ (m - (k + 1)) =
          2 ^ (m - 1) - 2 ^ (m - (k + 1)) := by
        have h1 : m - k = (m - (k + 1)) + 1 := by omega
        have h2 : m - 1 = (m - (k + 1)) + k := by omega
        rw [h1, h2, pow_add, pow_add, pow_one]
        have ha : 1 ≤ 2 ^ (m - (k + 1)) := Nat.one_le_two_pow
        have hb : 2 ^ (m - (k + 1)) * 2 ≤ 2 ^ (m - (k + 1)) * 2 ^ k :=
          Nat.mul_le_mul_left _ (by
            have h3 : (2 : Nat) ^ 1 ≤ 2 ^ k := Nat.pow_le_pow_right (by norm_num) hk1
            simpa using h3)
        omega
      show (some (Except.error (e (m - 1))), k + 1,
          2 ^ (m - 1) - 2 ^ (m - k) + 2 ^ (m - (k + 1))) =
        (some (Except.error (e (m - 1))), k + 1, 2 ^ (m - 1) - 2 ^ (m - (k + 1)))
      rw [harith]
    · have hk0 : k = 0 := by omega
      subst hk0
      rw [if_neg hlast]
      simp

/-- Sum of the first `n` powers of two. -/
theorem sum_two_pow (n : Nat) : ∑ i ∈ Finset.range n, 2 ^ i = 2 ^ n - 1 := by
  induction n with
  | zero => simp
  | succ n ih =>
    rw [Finset.sum_range_succ, ih]
    have h1 : (2 : Nat) ^ (n + 1) = 2 ^ n * 2 := by rw [pow_succ]
    have h2 : 1 ≤ (2 : Nat) ^ n := Nat.one_le_two_pow
    omega

/-- C3: the retry wrapper invokes the operation at most `maxRetries` times;
and when every attempt fails it performs exactly `maxRetries` calls, sleeps
`2^0 + 2^1 + ... + 2^(maxRetries-2)` seconds in total (one backoff of
`2^attempt` after each failed attempt except the last), and propagates the
error of the last attempt (index `maxRetries - 1`) unchanged. -/
theorem processWithRetry_spec {E A : Type} (m : Nat) (e : Nat → E) :
    (∀ op : Nat → Except E A, (processWithRetry op m).2.1 ≤ m) ∧
    (1 ≤ m → ∀ op : Nat → Except E A, (∀ i, i < m → op i = Except.error (e i)) →
      processWithRetry op m =
        (some (Except.error (e (m - 1))), m, ∑ i ∈ Finset.range (m - 1), 2 ^ i)) := by
  constructor
  · intro op
    exact retryGo_calls_le op m m
  · intro hm op hfail
    have h := retryGo_allfail op e m hfail m hm (le_refl m)
    unfold processWithRetry
    rw [h, sum_two_pow]
    have hmm : m - m = 0 := by omega
    rw [hmm, pow_zero]

/-- C3 (witness): three attempts against an always-failing operation: three
calls, `2^0 + 2^1 = 3` seconds of sleep, and the error of attempt 2
propagated. -/
theorem processWithRetry_spec_witness :
    (1 : Nat) ≤ 3 ∧
    processWithRetry failingOp 3 = (some (Except.error 2), 3, 3) := by
  refine ⟨by decide, ?_⟩
  have h := (@processWithRetry_spec Nat Nat 3 id).2 (by decide) failingOp
    (fun i _ => rfl)
  rw [h]
  norm_num [Finset.sum_range_succ]

/-! ## Theorems for claim C2 -/

/-- Reading back a digit character below ten. -/
theorem digitVal_digitChar (d : Nat) (hd : d < 10) : digitVal (digitChar d) = d := by
  interval_cases d <;> rfl

/-- Appending one digit multiplies the read-back value by ten. -/
theorem digitsVal_append_singleton (xs : List Char) (c : Char) :
    digitsVal (xs ++ [c]) = 10 * digitsVal xs + digitVal c := by
  unfold digitsVal
  rw [List.foldl_append]
  rfl

/-- With sufficient fuel, decimal rendering round-trips. -/
theorem digitsVal_natDigitsF : ∀ fuel n, n < fuel → digitsVal (natDigitsF fuel n) = n := by
  intro fuel
  induction fuel with
  | zero => intro n h; omega
  | succ fuel ih =>
    intro n h
    rw [natDigitsF]
    by_cases h10 : n < 10
    · rw [if_pos h10]
      have h1 : digitsVal [digitChar n] = digitVal (digitChar n) := by
        unfold digitsVal
        simp [List.foldl]
      rw [h1, digitVal_digitChar n h10]
    · rw [if_neg h10]
      have hdiv : n / 10 < fuel := by
        have h2 := Nat.div_lt_self (by omega : 0 < n) (by norm_num : 1 < 10)
        omega
      rw [digitsVal_append_singleton, ih _ hdiv,
        digitVal_digitChar _ (Nat.mod_lt _ (by norm_num))]
      omega

/-- Decimal rendering of naturals is injective. -/
theorem natStr_injective : Function.Injective natStr := by
  intro n m h
  have hd : natDigitsF (n + 1) n = natDigitsF (m + 1) m := congrArg String.data h
  have h1 := digitsVal_natDigitsF (n + 1) n (by omega)
  have h2 := digitsVal_natDigitsF (m + 1) m (by omega)
  rw [← h1, ← h2, hd]

/-- Distinct counters give distinct candidate paths. -/
theorem candidate_injective (dir base ext : String) :
    Function.Injective (fun k => joinPath dir (suffixName base ext k)) := by
  intro j k h
  apply natStr_injective
  have hd := congrArg String.data h
  simp only [joinPath, suffixName, String.data_append] at hd
  apply congrArg String.mk
  have h1 := List.append_cancel_left hd
  have h2 := List.append_cancel_right h1
  have h3 := List.append_cancel_left h2
  exact h3

/-- The bounded `while` loop returns the first free candidate whenever some
free candidate lies within its fuel. -/
theorem findFree_spec (fs : List String) (dir base ext : String) :
    ∀ fuel k,
      (∃ j, k ≤ j ∧ j < k + fuel ∧ joinPath dir (suffixName base ext j) ∉ fs) →
      ∃ m, k ≤ m ∧
        findFree fs dir base ext fuel k = joinPath dir (suffixName base ext m) ∧
        joinPath dir (suffixName base ext m) ∉ fs ∧
        ∀ j, k ≤ j → j < m → joinPath dir (suffixName base ext j) ∈ fs := by
  intro fuel
  induction fuel with
  | zero =>
    intro k hex
    obtain ⟨j, h1, h2, _⟩ := hex
    omega
  | succ fuel ih =>
    intro k hex
    by_cases hk : joinPath dir (suffixName base ext k) ∈ fs
    · rw [findFree, if_pos hk]
      have hex' : ∃ j, k + 1 ≤ j ∧ j < (k + 1) + fuel ∧
          joinPath dir (suffixName base ext j) ∉ fs := by
        obtain ⟨j, h1, h2, h3⟩ := hex
        have hne : j ≠ k := by
          intro he
          exact h3 (he ▸ hk)
        exact ⟨j, by omega, by omega, h3⟩
      obtain ⟨m, hm1, hm2, hm3, hm4⟩ := ih (k + 1) hex'
      refine ⟨m, by omega, hm2, hm3, ?_⟩
      intro j hj1 hj2
      by_cases hjk : j = k
      · exact hjk ▸ hk
      · exact hm4 j (by omega) hj2
    · rw [findFree, if_neg hk]
      exact ⟨k, le_refl k, rfl, hk, fun j h1 h2 => absurd h1 (by omega)⟩

/-- Pigeonhole: among the `fs.length + 1` candidates with counters
`1, ..., fs.length + 1`, at least one path is not in `fs`. -/
theorem exists_free_candidate (fs : List String) (dir base ext : String) :
    ∃ j, 1 ≤ j ∧ j < 1 + (fs.length + 1) ∧
      joinPath dir (suffixName base ext j) ∉ fs := by
  by_contra hcon
  push_neg at hcon
  have hinj : Function.Injective
      (fun i : Nat => joinPath dir (suffixName base ext (1 + i))) := by
    intro a b hab
    have h2 := candidate_injective dir base ext hab
    omega
  have hsub : (Finset.range (fs.length + 1)).image
      (fun i => joinPath dir (suffixName base ext (1 + i))) ⊆ fs.toFinset := by
    intro x hx
    rw [Finset.mem_image] at hx
    obtain ⟨i, hi, rfl⟩ := hx
    rw [Finset.mem_range] at hi
    rw [List.mem_toFinset]
    exact hcon (1 + i) (by omega) (by omega)
  have hcard := Finset.card_le_card hsub
  rw [Finset.card_image_of_injective _ hinj, Finset.card_range] at hcard
  have hle := List.toFinset_card_le fs
  omega

/-- The resolved move destination never coincides with an existing path. -/
theorem moveDestination_not_mem (fs : List String) (dir filename : String) :
    moveDestination fs dir filename ∉ fs := by
  unfold moveDestination
  by_cases hn : joinPath dir filename ∈ fs
  · rw [if_pos hn]
    obtain ⟨m, _, hm2, hm3, _⟩ := findFree_spec fs dir
      (splitExt filename).1 (splitExt filename).2 (fs.length + 1) 1
      (exists_free_candidate fs dir (splitExt filename).1 (splitExt filename).2)
    rw [hm2]
    exact hm3
  · rw [if_neg hn]
    exact hn

/-- C2: file placement never overwrites.  The resolved destination is not an
existing path; when the naive path is free it is used unchanged; when the
naive path exists, the destination is the first `base_k{ext}` candidate (with
counters `_1, _2, ...` tried in order) that does not exist; and resolving the
same filename twice into the same directory (the second time with the first
destination now existing) yields two distinct destinations. -/
theorem moveDestination_spec (fs : List String) (dir filename : String) :
    moveDestination fs dir filename ∉ fs ∧
    (joinPath dir filename ∉ fs →
      moveDestination fs dir filename = joinPath dir filename) ∧
    (joinPath dir filename ∈ fs →
      ∃ m, 1 ≤ m ∧
        moveDestination fs dir filename =
          joinPath dir (suffixName (splitExt filename).1 (splitExt filename).2 m) ∧
        joinPath dir (suffixName (splitExt filename).1 (splitExt filename).2 m) ∉ fs ∧
        ∀ j, 1 ≤ j → j < m →
          joinPath dir (suffixName (splitExt filename).1 (splitExt filename).2 j) ∈ fs) ∧
    moveDestination (moveDestination fs dir filename :: fs) dir filename ≠
      moveDestination fs dir filename := by
  refine ⟨moveDestination_not_mem fs dir filename, ?_, ?_, ?_⟩
  · intro hn
    unfold moveDestination
    rw [if_neg hn]
  · intro hn
    unfold moveDestination
    rw [if_pos hn]
    obtain ⟨m, hm1, hm2, hm3, hm4⟩ := findFree_spec fs dir
      (splitExt filename).1 (splitExt filename).2 (fs.length + 1) 1
      (exists_free_candidate fs dir (splitExt filename).1 (splitExt filename).2)
    exact ⟨m, hm1, hm2, hm3, hm4⟩
  · intro heq
    have h2 := moveDestination_not_mem
      (moveDestination fs dir filename :: fs) dir filename
    rw [heq] at h2
    exact h2 (List.mem_cons_self _ _)

/-- C2 (witness): with `err/a.mp3` already present, the resolver picks
`err/a_1.mp3`, which is fresh. -/
theorem moveDestination_spec_witness :
    moveDestination ["err/a.mp3"] "err" "a.mp3" = "err/a_1.mp3" ∧
    moveDestination ["err/a.mp3"] "err" "a.mp3" ∉ ["err/a.mp3"] :=
  ⟨by decide, (moveDestination_spec ["err/a.mp3"] "err" "a.mp3").1⟩

/-! ## Theorems for claims C6, C9 -/

/-- C6: when validation passes but the transcription stage returns an empty
or whitespace-only transcript, the job fails hard: the run returns `False`,
the job ends `failed` carrying the error message mentioning the empty
transcript, the source file is relocated into the configured error
directory, and the summary, naming, output and processed-move stages are all
skipped. -/
theorem processFile_empty_transcript (env : PipelineEnv) (filePath : String) (now : Nat)
    (t : String) (hval : env.validateOk = true) (ht : env.transcribe = Except.ok t)
    (htrim : pyStrip t = "") (ef : String) (hef : env.errorFolder = some ef)
    (hex : filePath ∈ env.fs) :
    (processFile env filePath now).success = false ∧
    ((processFile env filePath now).store 1).map Job.status = some "failed" ∧
    ((processFile env filePath now).store 1).map Job.errorMessage =
      some (some "Processing failed: Empty transcript received from Deepgram") ∧
    (processFile env filePath now).movedTo =
      some (moveDestination env.fs ef (baseName filePath)) ∧
    "summary" ∉ (processFile env filePath now).steps ∧
    "naming" ∉ (processFile env filePath now).steps ∧
    "save_output" ∉ (processFile env filePath now).steps ∧
    "move_processed" ∉ (processFile env filePath now).steps := by
  have hres : processFile env filePath now =
      { success := false
        store := updateJobStatus (startedStore now) 1 "failed"
          (some "Processing failed: Empty transcript received from Deepgram") now
        movedTo := moveErrorFile env.fs filePath env.errorFolder
        steps := ["create_job", "validate", "transcribe"] } := by
    unfold processFile
    rw [hval]
    rw [if_neg (by simp)]
    rw [ht]
    dsimp only
    rw [if_pos (Or.inr htrim)]
  rw [hres]
  refine ⟨rfl, ?_, ?_, ?_, by simp, by simp, by simp, by simp⟩
  · simp [updateJobStatus, startedStore]
  · simp [updateJobStatus, startedStore]
  · simp only [moveErrorFile, hef]
    rw [if_pos hex]

/-- C6 (witness): a concrete run with an empty transcript. -/
theorem processFile_empty_transcript_witness :
    (processFile emptyTranscriptEnv "watch/a.mp3" 7).success = false ∧
    ((processFile emptyTranscriptEnv "watch/a.mp3" 7).store 1).map Job.status =
      some "failed" ∧
    ((processFile emptyTranscriptEnv "watch/a.mp3" 7).store 1).map Job.errorMessage =
      some (some "Processing failed: Empty transcript received from Deepgram") ∧
    (processFile emptyTranscriptEnv "watch/a.mp3" 7).movedTo =
      some (moveDestination emptyTranscriptEnv.fs "err" (baseName "watch/a.mp3")) ∧
    "summary" ∉ (processFile emptyTranscriptEnv "watch/a.mp3" 7).steps ∧
    "naming" ∉ (processFile emptyTranscriptEnv "watch/a.mp3" 7).steps ∧
    "save_output" ∉ (processFile emptyTranscriptEnv "watch/a.mp3" 7).steps ∧
    "move_processed" ∉ (processFile emptyTranscriptEnv "watch/a.mp3" 7).steps :=
  processFile_empty_transcript emptyTranscriptEnv "watch/a.mp3" 7 "" rfl rfl rfl
    "err" rfl (by decide)

/-- C9 (counterexample): a well-formed response whose channel list is empty
makes the formatter yield an empty transcript, yet the returned value is the
empty string, not the fixed sentinel; the orchestrator's empty-transcript
failure branch is therefore reachable. -/
theorem formatTranscript_empty_channels :
    formatTranscript emptyChannelsResponse = "" ∧
    formatTranscript emptyChannelsResponse ≠ "No speech detected in audio file." := by
  constructor
  · rfl
  · decide

/-- C9 (amended): for every response having a `results` object with at least
one channel, the formatter never returns an empty string; in particular,
when the assembled transcript is blank it returns the fixed sentinel
`"No speech detected in audio file."`.  Responses with no results or no
channels return `""` instead. -/
theorem formatTranscript_nonempty (r : DGResponse) (res : DGResults)
    (hres : r.results = some res) (hch : res.channels ≠ []) :
    formatTranscript r ≠ "" ∧
    (pyStrip (assembleTranscript res) = "" →
      formatTranscript r = "No speech detected in audio file.") := by
  unfold formatTranscript
  rw [hres]
  dsimp only
  rw [if_neg hch]
  by_cases htr : pyStrip (assembleTranscript res) = ""
  · rw [if_pos htr]
    exact ⟨by decide, fun _ => rfl⟩
  · rw [if_neg htr]
    refine ⟨?_, fun hh => absurd hh htr⟩
    intro he
    apply htr
    rw [he]
    rfl

/-- C9 (witness): one channel with no alternatives assembles a blank
transcript, so the sentinel is returned and the result is non-empty. -/
theorem formatTranscript_nonempty_witness :
    formatTranscript silentResponse ≠ "" ∧
    formatTranscript silentResponse = "No speech detected in audio file." := by
  have h := formatTranscript_nonempty silentResponse { channels := [{ alternatives := [] }] }
    rfl (by decide)
  exact ⟨h.1, h.2 (by decide)⟩

/-! ## Theorems for claim C7 -/

/-- C7 (counterexample): filename cleanup is not idempotent.  On
`"re re re-y"` the first regex pass collapses the leading `"re re"` but does
not rescan, leaving `"re re-y"`, whose embedded `re` (followed by the
non-word `-`) matches `\bre\s+re\b` only on the second pass. -/
theorem cleanFilename_not_idempotent :
    cleanFilename "re re re-y" = "re re-y" ∧
    cleanFilename (cleanFilename "re re re-y") = "re-y" ∧
    cleanFilename (cleanFilename "re re re-y") ≠ cleanFilename "re re re-y" := by
  refine ⟨by decide, by decide, by decide⟩

/-- Alphanumeric characters are not whitespace. -/
theorem alnum_not_ws {c : Char} (h : isAlnumCh c = true) : isWsCh c = false := by
  simp only [isAlnumCh, Bool.or_eq_true, Bool.and_eq_true, decide_eq_true_eq] at h
  simp only [isWsCh, Bool.or_eq_false_iff, decide_eq_false_iff_not]
  omega

/-- Alphanumeric characters are word characters. -/
theorem alnum_word {c : Char} (h : isAlnumCh c = true) : isWordCh c = true := by
  simp [isWordCh, h]

/-- Word characters are not whitespace. -/
theorem word_not_ws {c : Char} (h : isWordCh c = true) : isWsCh c = false := by
  simp only [isWordCh, isAlnumCh, Bool.or_eq_true, Bool.and_eq_true,
    decide_eq_true_eq] at h
  simp only [isWsCh, Bool.or_eq_false_iff, decide_eq_false_iff_not]
  omega

/-- Good characters survive the invalid-character filter. -/
theorem filter_invalid_id {l : List Char} (h : ∀ c ∈ l, goodCh c) :
    l.filter (fun c => !(decide (c ∈ invalidChars))) = l := by
  rw [List.filter_eq_self]
  intro c hc
  have hg := h c hc
  simp only [Bool.not_eq_true', decide_eq_false_iff_not]
  intro hcon
  simp only [invalidChars, List.mem_cons, List.not_mem_nil, or_false] at hcon
  rcases hg with hg | hg
  · rcases hcon with rfl | rfl | rfl | rfl | rfl | rfl | rfl | rfl | rfl <;>
      exact absurd hg (by decide)
  · rcases hcon with rfl | rfl | rfl | rfl | rfl | rfl | rfl | rfl | rfl <;>
      exact absurd hg (by decide)

/-- `renderWords` over a cons with a non-empty tail. -/
theorem renderWords_cons (t : List Char) (ts : List (List Char)) (h : ts ≠ []) :
    renderWords (t :: ts) = t ++ ' ' :: renderWords ts := by
  cases ts with
  | nil => exact absurd rfl h
  | cons t₂ ts' => rfl

/-- Every character of a rendering is a space or belongs to some token. -/
theorem renderWords_chars {ts : List (List Char)} {c : Char}
    (h : c ∈ renderWords ts) : c = ' ' ∨ ∃ t ∈ ts, c ∈ t := by
  induction ts with
  | nil => simp [renderWords] at h
  | cons t ts ih =>
    cases ts with
    | nil =>
      simp only [renderWords] at h
      exact Or.inr ⟨t, by simp, h⟩
    | cons t₂ ts' =>
      rw [renderWords_cons t (t₂ :: ts') (by simp)] at h
      rcases List.mem_append.1 h with h1 | h1
      · exact Or.inr ⟨t, by simp, h1⟩
      · rcases List.mem_cons.1 h1 with rfl | h2
        · exact Or.inl rfl
        · rcases ih h2 with h3 | ⟨u, hu, hcu⟩
          · exact Or.inl h3
          · exact Or.inr ⟨u, by simp [hu], hcu⟩

/-- A rendering of a non-empty well-formed token list is non-empty. -/
theorem renderWords_ne_nil {ts : List (List Char)} (hg : tokensGood ts)
    (h : ts ≠ []) : renderWords ts ≠ [] := by
  cases ts with
  | nil => exact absurd rfl h
  | cons t ts' =>
    have ht := (hg t (by simp)).1
    cases ts' with
    | nil => simpa [renderWords] using ht
    | cons t₂ ts'' =>
      rw [renderWords_cons t (t₂ :: ts'') (by simp)]
      cases t with
      | nil => exact absurd rfl ht
      | cons c t' => simp

/-- The scanner copies a single non-whitespace character. -/
theorem collapseWsAux_cons_not_ws {c : Char} (h : isWsCh c = false) (b : Bool)
    (l : List Char) : collapseWsAux b (c :: l) = c :: collapseWsAux false l := by
  simp [collapseWsAux, h]

/-- The whitespace collapse copies a whitespace-free chunk. -/
theorem collapseWsAux_word {w : List Char} (hw : ∀ c ∈ w, isWsCh c = false)
    (r : List Char) :
    collapseWsAux false (w ++ r) = w ++ collapseWsAux false r := by
  induction w with
  | nil => rfl
  | cons c w' ih =>
    rw [List.cons_append, collapseWsAux_cons_not_ws (hw c (by simp)) false,
      ih (fun d hd => hw d (by simp [hd]))]
    rfl

/-- The whitespace collapse leaves a whitespace-free list unchanged. -/
theorem collapseWsAux_word_nil {w : List Char} (hw : ∀ c ∈ w, isWsCh c = false) :
    collapseWsAux false w = w := by
  induction w with
  | nil => rfl
  | cons c w' ih =>
    rw [collapseWsAux_cons_not_ws (hw c (by simp)) false,
      ih (fun d hd => hw d (by simp [hd]))]

/-- A rendering of a non-empty well-formed token list starts with an
alphanumeric character. -/
theorem renderWords_head {t : List Char} {ts : List (List Char)}
    (hg : tokensGood (t :: ts)) :
    ∃ c r, renderWords (t :: ts) = c :: r ∧ isAlnumCh c = true := by
  obtain ⟨ht, hta⟩ := hg t (by simp)
  cases t with
  | nil => exact absurd rfl ht
  | cons c t' =>
    have hc : isAlnumCh c = true := hta c (by simp)
    cases ts with
    | nil => exact ⟨c, t', rfl, hc⟩
    | cons t₂ ts' =>
      refine ⟨c, t' ++ ' ' :: renderWords (t₂ :: ts'), ?_, hc⟩
      rw [renderWords_cons (c :: t') (t₂ :: ts') (by simp)]
      rfl

/-- The whitespace collapse leaves a rendering of well-formed tokens
unchanged. -/
theorem collapseWsAux_render {ts : List (List Char)} (hg : tokensGood ts) :
    collapseWsAux false (renderWords ts) = renderWords ts := by
  induction ts with
  | nil => rfl
  | cons t ts ih =>
    have hw : ∀ c ∈ t, isWsCh c = false := fun c hc =>
      alnum_not_ws ((hg t (by simp)).2 c hc)
    have hg' : tokensGood ts := fun u hu => hg u (by simp [hu])
    cases ts with
    | nil =>
      show collapseWsAux false t = t
      exact collapseWsAux_word_nil hw
    | cons t₂ ts' =>
      rw [renderWords_cons t (t₂ :: ts') (by simp), collapseWsAux_word hw]
      congr 1
      have h2 : collapseWsAux false (' ' :: renderWords (t₂ :: ts')) =
          ' ' :: collapseWsAux true (renderWords (t₂ :: ts')) := by
        simp [collapseWsAux, isWsCh]
      rw [h2]
      obtain ⟨c, r, hr, hc⟩ := renderWords_head hg'
      have ih' := ih hg'
      rw [hr, collapseWsAux_cons_not_ws (alnum_not_ws hc) false] at ih'
      rw [hr, collapseWsAux_cons_not_ws (alnum_not_ws hc) true]
      rw [ih']

/-- `dropWhile` keeps a list whose head fails the predicate. -/
theorem dropWhile_cons_false {p : Char → Bool} {c : Char} {l : List Char}
    (h : p c = false) : (c :: l).dropWhile p = c :: l := by
  simp [List.dropWhile, h]

/-- Stripping leaves a list with non-whitespace ends unchanged. -/
theorem trimChars_eq_self {l : List Char}
    (hhead : ∀ c, l.head? = some c → isWsCh c = false)
    (hlast : ∀ c, l.getLast? = some c → isWsCh c = false) :
    trimChars l = l := by
  unfold trimChars
  cases l with
  | nil => rfl
  | cons c r =>
    rw [dropWhile_cons_false (hhead c rfl)]
    cases hrev : (c :: r).reverse with
    | nil => exact absurd hrev (by simp)
    | cons d r' =>
      have hd : (c :: r).getLast? = some d := by
        rw [← List.head?_reverse, hrev]
        rfl
      rw [dropWhile_cons_false (hlast d hd), ← hrev, List.reverse_reverse]

/-- The last character of a rendering of well-formed tokens is
alphanumeric. -/
theorem renderWords_last {t : List Char} {ts : List (List Char)}
    (hg : tokensGood (t :: ts)) :
    ∃ c, (renderWords (t :: ts)).getLast? = some c ∧ isAlnumCh c = true := by
  induction ts generalizing t with
  | nil =>
    obtain ⟨ht, hta⟩ := hg t (by simp)
    refine ⟨(t.getLast ht), ?_, hta _ (List.getLast_mem ht)⟩
    show t.getLast? = some (t.getLast ht)
    exact List.getLast?_eq_getLast t ht
  | cons t₂ ts' ih =>
    have hg₂ : tokensGood (t₂ :: ts') := fun u hu => hg u (by simp at hu ⊢; tauto)
    obtain ⟨c, hc, hca⟩ := ih hg₂
    refine ⟨c, ?_, hca⟩
    rw [renderWords_cons t (t₂ :: ts') (by simp)]
    have hne : renderWords (t₂ :: ts') ≠ [] := renderWords_ne_nil hg₂ (by simp)
    rw [List.getLast?_append_of_ne_nil _ (by simp)]
    cases hrw : renderWords (t₂ :: ts') with
    | nil => exact absurd hrw hne
    | cons d r =>
      rw [List.getLast?_cons_cons]
      rw [hrw] at hc
      exact hc

/-- Stripping leaves a rendering of well-formed tokens unchanged. -/
theorem trimChars_render {ts : List (List Char)} (hg : tokensGood ts) :
    trimChars (renderWords ts) = renderWords ts := by
  cases ts with
  | nil => rfl
  | cons t ts' =>
    apply trimChars_eq_self
    · intro c hc
      obtain ⟨d, r, hr, hd⟩ := renderWords_head hg
      rw [hr] at hc
      simp only [List.head?_cons, Option.some.injEq] at hc
      rw [← hc]
      exact alnum_not_ws hd
    · intro c hc
      obtain ⟨d, hd, hda⟩ := renderWords_last hg
      rw [hd] at hc
      simp only [Option.some.injEq] at hc
      rw [← hc]
      exact alnum_not_ws hda

/-- `splitWordsAux` on a non-whitespace character extends the accumulator. -/
theorem splitWordsAux_cons_not_ws {c : Char} (h : isWsCh c = false)
    (rest acc : List Char) :
    splitWordsAux (c :: rest) acc = splitWordsAux rest (c :: acc) := by
  simp [splitWordsAux, h]

/-- `splitWordsAux` on a whitespace character flushes the accumulator. -/
theorem splitWordsAux_cons_ws {c : Char} (h : isWsCh c = true)
    (rest acc : List Char) :
    splitWordsAux (c :: rest) acc =
      if acc.isEmpty then splitWordsAux rest []
      else acc.reverse :: splitWordsAux rest [] := by
  simp [splitWordsAux, h]

/-- `splitWordsAux` consumes a whitespace-free chunk into the accumulator. -/
theorem splitWordsAux_word {w : List Char} (hw : ∀ c ∈ w, isWsCh c = false) :
    ∀ r acc, splitWordsAux (w ++ r) acc = splitWordsAux r (w.reverse ++ acc) := by
  induction w with
  | nil => intro r acc; simp
  | cons c w' ih =>
    intro r acc
    rw [List.cons_append, splitWordsAux_cons_not_ws (hw c (by simp)),
      ih (fun d hd => hw d (by simp [hd]))]
    simp

/-- Splitting a rendering of well-formed tokens recovers the tokens. -/
theorem splitWords_render {ts : List (List Char)} (hg : tokensGood ts) :
    splitWords (renderWords ts) = ts := by
  induction ts with
  | nil => rfl
  | cons t ts ih =>
    have ht := (hg t (by simp)).1
    have hw : ∀ c ∈ t, isWsCh c = false := fun c hc =>
      alnum_not_ws ((hg t (by simp)).2 c hc)
    have hg' : tokensGood ts := fun u hu => hg u (by simp [hu])
    cases ts with
    | nil =>
      show splitWordsAux (renderWords [t]) [] = [t]
      have h1 : renderWords [t] = t ++ [] := by simp [renderWords]
      rw [h1, splitWordsAux_word hw]
      simp [splitWordsAux, ht]
    | cons t₂ ts' =>
      show splitWordsAux (renderWords (t :: t₂ :: ts')) [] = _
      rw [renderWords_cons t (t₂ :: ts') (by simp), splitWordsAux_word hw,
        splitWordsAux_cons_ws (by decide)]
      rw [if_neg (by simp [ht])]
      simp only [List.append_nil, List.reverse_reverse]
      have h4 : splitWordsAux (renderWords (t₂ :: ts')) [] = t₂ :: ts' := ih hg'
      rw [h4]

/-- Every token produced by `splitWords` over a good alphabet is non-empty
and alphanumeric. -/
theorem splitWords_good {l : List Char} (h : ∀ c ∈ l, goodCh c) :
    tokensGood (splitWords l) := by
  suffices haux : ∀ (l acc : List Char), (∀ c ∈ acc, isAlnumCh c = true) →
      (∀ c ∈ l, goodCh c) → tokensGood (splitWordsAux l acc) by
    exact haux l [] (by simp) h
  intro l
  induction l with
  | nil =>
    intro acc hacc _
    show tokensGood (if acc.isEmpty then [] else [acc.reverse])
    by_cases he : acc.isEmpty = true
    · rw [if_pos he]
      intro u hu
      simp at hu
    · rw [if_neg he]
      intro u hu
      simp only [List.mem_singleton] at hu
      subst hu
      constructor
      · simp only [ne_eq, List.reverse_eq_nil_iff]
        intro hc
        subst hc
        simp at he
      · intro c hc
        exact hacc c (by simpa using hc)
  | cons c rest ih =>
    intro acc hacc hl
    by_cases hws : isWsCh c = true
    · rw [splitWordsAux_cons_ws hws]
      by_cases he : acc.isEmpty
      · rw [if_pos he]
        exact ih [] (by simp) (fun d hd => hl d (by simp [hd]))
      · rw [if_neg he]
        intro u hu
        rcases List.mem_cons.1 hu with rfl | hu2
        · constructor
          · simp only [ne_eq, List.reverse_eq_nil_iff]
            intro hc
            subst hc
            simp at he
          · intro d hd
            exact hacc d (by simpa using hd)
        · exact ih [] (by simp) (fun d hd => hl d (by simp [hd])) u hu2
    · rw [splitWordsAux_cons_not_ws (by simpa using hws)]
      have hca : isAlnumCh c = true := by
        rcases hl c (by simp) with hg | hg
        · exact hg
        · subst hg
          exact absurd (by decide : isWsCh ' ' = true) (by simpa using hws)
      exact ih (c :: acc) (by
        intro d hd
        rcases List.mem_cons.1 hd with rfl | hd2
        · exact hca
        · exact hacc d hd2) (fun d hd => hl d (by simp [hd]))

/-- A word that is skipped agrees with its predecessor case-insensitively. -/
theorem skipDup_lower {p w : List Char} (h : skipDup p w = true) :
    lowerW w = lowerW p := by
  simp only [skipDup, Bool.and_eq_true, decide_eq_true_eq] at h
  exact h.1

/-- The skip test only depends on the predecessor through its lower-case
form. -/
theorem skipDup_congr {p p' w : List Char} (h : lowerW p = lowerW p') :
    skipDup p w = skipDup p' w := by
  simp only [skipDup, h]

/-- The first kept word is never skippable against the original
predecessor. -/
theorem dedupAux_head {l : List (List Char)} :
    ∀ {p w}, (dedupAux p l).head? = some w → skipDup p w = false := by
  induction l with
  | nil => intro p w h; simp [dedupAux] at h
  | cons w' ws ih =>
    intro p w h
    by_cases hs : skipDup p w' = true
    · rw [dedupAux, if_pos hs] at h
      have h2 := ih h
      rw [skipDup_congr (skipDup_lower hs)] at h2
      exact h2
    · rw [dedupAux, if_neg hs] at h
      simp only [List.head?_cons, Option.some.injEq] at h
      subst h
      simpa using hs

/-- The kept words contain no skippable adjacent pair. -/
theorem dedupAux_chain {l : List (List Char)} :
    ∀ {p}, List.Chain' (fun a b => skipDup a b = false) (dedupAux p l) := by
  induction l with
  | nil => intro p; simp [dedupAux]
  | cons w' ws ih =>
    intro p
    by_cases hs : skipDup p w' = true
    · rw [dedupAux, if_pos hs]
      exact ih
    · rw [dedupAux, if_neg hs]
      rw [List.chain'_cons']
      exact ⟨fun y hy => dedupAux_head hy, ih⟩

/-- The word loop's output is skip-free. -/
theorem dedupWords_skipFree (l : List (List Char)) : skipFree (dedupWords l) := by
  cases l with
  | nil => simp [dedupWords, skipFree]
  | cons w ws =>
    rw [dedupWords, skipFree, List.chain'_cons']
    exact ⟨fun y hy => dedupAux_head hy, dedupAux_chain⟩

/-- The word loop leaves a skip-free list unchanged. -/
theorem dedupAux_eq_self {l : List (List Char)} :
    ∀ {p}, (∀ w, l.head? = some w → skipDup p w = false) →
    List.Chain' (fun a b => skipDup a b = false) l → dedupAux p l = l := by
  induction l with
  | nil => intro p _ _; rfl
  | cons w ws ih =>
    intro p hhead hchain
    have h1 : skipDup p w = false := hhead w rfl
    rw [dedupAux, if_neg (by simp [h1])]
    rw [List.chain'_cons'] at hchain
    rw [ih (fun y hy => hchain.1 y hy) hchain.2]

/-- The word loop is the identity on skip-free word lists. -/
theorem dedupWords_eq_self {l : List (List Char)} (h : skipFree l) :
    dedupWords l = l := by
  cases l with
  | nil => rfl
  | cons w ws =>
    rw [skipFree, List.chain'_cons'] at h
    rw [dedupWords, dedupAux_eq_self (fun y hy => h.1 y hy) h.2]

/-- The kept words are a sublist of the input words. -/
theorem dedupAux_sublist (l : List (List Char)) :
    ∀ p, List.Sublist (dedupAux p l) l := by
  induction l with
  | nil => intro p; simp [dedupAux]
  | cons w ws ih =>
    intro p
    by_cases hs : skipDup p w = true
    · rw [dedupAux, if_pos hs]
      exact List.Sublist.cons w (ih w)
    · rw [dedupAux, if_neg hs]
      exact List.Sublist.cons₂ w (ih w)

/-- The word loop's output words all occur in its input. -/
theorem dedupWords_sublist (l : List (List Char)) :
    List.Sublist (dedupWords l) l := by
  cases l with
  | nil => simp [dedupWords]
  | cons w ws =>
    rw [dedupWords]
    exact List.Sublist.cons₂ w (dedupAux_sublist ws w)

/-- The case-insensitive matcher accepts a chunk whose lower case is the
keyword. -/
theorem matchCI_exact {t : List Char} :
    ∀ {kw r : List Char}, lowerW t = kw → matchCI kw (t ++ r) = some r := by
  induction t with
  | nil =>
    intro kw r h
    rw [← h]
    rfl
  | cons c t' ih =>
    intro kw r h
    rw [← h]
    show matchCI (c.toLower :: lowerW t') (c :: (t' ++ r)) = some r
    rw [matchCI, if_pos rfl]
    exact ih rfl

/-- An accepting run of the matcher splits its input after a case variant of
the keyword. -/
theorem matchCI_split {kw : List Char} :
    ∀ {s s' : List Char}, matchCI kw s = some s' →
      ∃ pre, s = pre ++ s' ∧ lowerW pre = kw := by
  induction kw with
  | nil =>
    intro s s' h
    simp only [matchCI, Option.some.injEq] at h
    exact ⟨[], by simp [h], rfl⟩
  | cons k ks ih =>
    intro s s' h
    cases s with
    | nil => simp [matchCI] at h
    | cons c cs =>
      rw [matchCI] at h
      by_cases hc : c.toLower = k
      · rw [if_pos hc] at h
        obtain ⟨pre', hp1, hp2⟩ := ih h
        exact ⟨c :: pre', by simp [hp1], by simp [lowerW] at hp2 ⊢; exact ⟨hc, hp2⟩⟩
      · rw [if_neg hc] at h
        simp at h

/-- Characters of `dropWs` output come from its input. -/
theorem dropWs_mem {l : List Char} {c : Char} (h : c ∈ dropWs l) : c ∈ l := by
  induction l with
  | nil => simp [dropWs] at h
  | cons d l' ih =>
    by_cases hd : isWsCh d = true
    · rw [dropWs, List.dropWhile_cons, if_pos hd] at h
      exact List.mem_cons_of_mem d (ih h)
    · rw [dropWs, List.dropWhile_cons, if_neg (by simpa using hd)] at h
      exact h

/-- `dropWs` never lengthens a list. -/
theorem dropWs_length (l : List Char) : (dropWs l).length ≤ l.length := by
  induction l with
  | nil => simp [dropWs]
  | cons d l' ih =>
    by_cases hd : isWsCh d = true
    · rw [dropWs, List.dropWhile_cons, if_pos hd]
      rw [dropWs] at ih
      simpa using Nat.le_succ_of_le ih
    · rw [dropWs, List.dropWhile_cons, if_neg (by simpa using hd)]

/-- A successful pair match consumes at least one character and returns a
subset of the input. -/
theorem tryMatchPair_spec {kw s s3 : List Char} (h : tryMatchPair kw s = some s3) :
    (∀ c ∈ s3, c ∈ s) ∧ s3.length < s.length := by
  unfold tryMatchPair at h
  cases h1 : matchCI kw s with
  | none => rw [h1] at h; simp at h
  | some s1 =>
    rw [h1] at h
    obtain ⟨pre1, hs1, _⟩ := matchCI_split h1
    cases s1 with
    | nil => simp at h
    | cons c cs =>
      dsimp only at h
      by_cases hws : isWsCh c = true
      · rw [if_pos hws] at h
        cases h2 : matchCI kw (dropWs cs) with
        | none => rw [h2] at h; simp at h
        | some s3' =>
          rw [h2] at h
          obtain ⟨pre2, hs2, _⟩ := matchCI_split h2
          have hmem : ∀ c' ∈ s3', c' ∈ s := by
            intro c' hc'
            have hm1 : c' ∈ dropWs cs := by
              rw [hs2]
              exact List.mem_append_right _ hc'
            have hm2 : c' ∈ cs := dropWs_mem hm1
            rw [hs1]
            exact List.mem_append_right _ (by simp [hm2])
          have hlen : s3'.length < s.length := by
            have e1 : s.length = pre1.length + (cs.length + 1) := by
              rw [hs1]; simp
            have e2 : (dropWs cs).length ≤ cs.length := dropWs_length cs
            have e3 : (dropWs cs).length = pre2.length + s3'.length := by
              rw [hs2]; simp
            omega
          cases s3' with
          | nil =>
            dsimp only at h
            have h4 : s3 = [] := by
              injection h with h4
              exact h4.symm
            subst h4
            exact ⟨by simp, by simpa using hlen⟩
          | cons d ds =>
            dsimp only at h
            by_cases hw : isWordCh d = true
            · rw [if_pos hw] at h; simp at h
            · rw [if_neg hw] at h
              have h4 : s3 = d :: ds := by
                injection h with h4
                exact h4.symm
              subst h4
              exact ⟨hmem, hlen⟩
      · rw [if_neg hws] at h; simp at h

/-- Where a case variant of the keyword matches inside `token ++ rest` (with
`rest` empty or starting with a space): either exactly the token matched, or
the remainder starts with a word character. -/
theorem matchCI_cases {kw t r s' : List Char} (hkw : kwSpec kw)
    (ht : t ≠ []) (hta : ∀ c ∈ t, isAlnumCh c = true)
    (hr : r = [] ∨ ∃ r₂, r = ' ' :: r₂)
    (h : matchCI kw (t ++ r) = some s') :
    (lowerW t = kw ∧ s' = r) ∨ (∃ d ds, s' = d :: ds ∧ isWordCh d = true) := by
  obtain ⟨pre, hpre, hl⟩ := matchCI_split h
  rcases List.append_eq_append_iff.1 hpre with ⟨x, hx1, hx2⟩ | ⟨y, hy1, hy2⟩
  · cases x with
    | nil =>
      rw [List.append_nil] at hx1
      subst hx1
      rw [List.nil_append] at hx2
      exact Or.inl ⟨hl, hx2.symm⟩
    | cons d x' =>
      rcases hr with rfl | ⟨r₂, rfl⟩
      · simp at hx2
      · have hd : d = ' ' := by
          injection hx2 with h1 h2
          exact h1.symm
        subst hd
        have hsp : (' ' : Char) ∈ pre := by
          rw [hx1]
          exact List.mem_append_right _ (by simp)
        have hspk : (' ' : Char).toLower ∈ kw := by
          rw [← hl]
          exact List.mem_map_of_mem Char.toLower hsp
        have : isAlnumCh ' ' = true := (hkw.2 _ (by simpa using hspk)).1
        exact absurd this (by decide)
  · cases y with
    | nil =>
      rw [List.append_nil] at hy1
      subst hy1
      rw [List.nil_append] at hy2
      exact Or.inl ⟨hl, hy2⟩
    | cons d y' =>
      refine Or.inr ⟨d, y' ++ r, hy2, ?_⟩
      apply alnum_word
      apply hta
      rw [hy1]
      exact List.mem_append_right _ (by simp)

/-- No pair match starts at a token of a rendering unless the first two
tokens are both case variants of the keyword. -/
theorem tryMatch_render_none {kw t : List Char} {ts : List (List Char)}
    (hkw : kwSpec kw) (hg : tokensGood (t :: ts))
    (hnp : ¬(lowerW t = kw ∧ ∃ t₂ ts'', ts = t₂ :: ts'' ∧ lowerW t₂ = kw)) :
    tryMatchPair kw (renderWords (t :: ts)) = none := by
  have ht := (hg t (by simp)).1
  have hta := (hg t (by simp)).2
  cases ts with
  | nil =>
    have hr : renderWords [t] = t ++ [] := by simp [renderWords]
    rw [hr]
    unfold tryMatchPair
    cases h1 : matchCI kw (t ++ []) with
    | none => rfl
    | some s1 =>
      rcases matchCI_cases hkw ht hta (Or.inl rfl) h1 with ⟨_, hs1⟩ | ⟨d, ds, hs1, hdw⟩
      · subst hs1; rfl
      · subst hs1
        dsimp only
        rw [if_neg (by simp [word_not_ws hdw])]
  | cons t₂ ts'' =>
    have hg₂ : tokensGood (t₂ :: ts'') := fun u hu => hg u (List.mem_cons_of_mem t hu)
    have ht₂ := (hg₂ t₂ (by simp)).1
    have hta₂ := (hg₂ t₂ (by simp)).2
    rw [renderWords_cons t (t₂ :: ts'') (by simp)]
    unfold tryMatchPair
    cases h1 : matchCI kw (t ++ ' ' :: renderWords (t₂ :: ts'')) with
    | none => rfl
    | some s1 =>
      rcases matchCI_cases hkw ht hta (Or.inr ⟨_, rfl⟩) h1 with ⟨hlt, hs1⟩ | ⟨d, ds, hs1, hdw⟩
      · subst hs1
        dsimp only
        rw [if_pos (by decide)]
        obtain ⟨c2, r2, hr2, hc2⟩ := renderWords_head hg₂
        have hdrop : dropWs (renderWords (t₂ :: ts'')) = renderWords (t₂ :: ts'') := by
          rw [hr2]
          exact dropWhile_cons_false (alnum_not_ws hc2)
        rw [hdrop]
        cases ts'' with
        | nil =>
          have hx : renderWords [t₂] = t₂ ++ [] := by simp [renderWords]
          rw [hx]
          cases h2 : matchCI kw (t₂ ++ []) with
          | none => rfl
          | some s3 =>
            rcases matchCI_cases hkw ht₂ hta₂ (Or.inl rfl) h2 with ⟨hlt2, hs3⟩ |
              ⟨d, ds, hs3, hdw⟩
            · exact absurd ⟨hlt, t₂, [], rfl, hlt2⟩ hnp
            · subst hs3
              dsimp only
              rw [if_pos hdw]
        | cons t₃ ts''' =>
          rw [renderWords_cons t₂ (t₃ :: ts''') (by simp)]
          cases h2 : matchCI kw (t₂ ++ ' ' :: renderWords (t₃ :: ts''')) with
          | none => rfl
          | some s3 =>
            rcases matchCI_cases hkw ht₂ hta₂ (Or.inr ⟨_, rfl⟩) h2 with ⟨hlt2, hs3⟩ |
              ⟨d, ds, hs3, hdw⟩
            · exact absurd ⟨hlt, t₂, t₃ :: ts''', rfl, hlt2⟩ hnp
            · subst hs3
              dsimp only
              rw [if_pos hdw]
      · subst hs1
        dsimp only
        rw [if_neg (by simp [word_not_ws hdw])]

/-- The scanner on the empty input. -/
theorem subKwF_nil (kw : List Char) (fuel : Nat) (prev : Option Char) :
    subKwF kw fuel prev [] = [] := by
  cases fuel <;> rfl

/-- The scanner replaces a successful match at a boundary. -/
theorem subKwF_cons_match {kw : List Char} {prev : Option Char} {c : Char}
    {rest s3 : List Char} {fuel : Nat} (hb : prevBoundary prev = true)
    (hm : tryMatchPair kw (c :: rest) = some s3) :
    subKwF kw (fuel + 1) prev (c :: rest) =
      kw ++ subKwF kw fuel (some (kw.getLastD 'e')) s3 := by
  simp only [subKwF, hb, if_true, hm]

/-- The scanner copies a character at a boundary with no match. -/
theorem subKwF_cons_nomatch {kw : List Char} {prev : Option Char} {c : Char}
    {rest : List Char} {fuel : Nat} (hb : prevBoundary prev = true)
    (hm : tryMatchPair kw (c :: rest) = none) :
    subKwF kw (fuel + 1) prev (c :: rest) = c :: subKwF kw fuel (some c) rest := by
  simp only [subKwF, hb, if_true, hm]

/-- The scanner copies a character where no boundary holds. -/
theorem subKwF_cons_nb {kw : List Char} {prev : Option Char} {c : Char}
    {rest : List Char} {fuel : Nat} (hb : prevBoundary prev = false) :
    subKwF kw (fuel + 1) prev (c :: rest) = c :: subKwF kw fuel (some c) rest := by
  simp only [subKwF, hb]
  rfl

/-- The previous-character state after a non-empty chunk is its last
character. -/
theorem prevAfter_cons (c : Char) (w : List Char) (prev : Option Char) :
    prevAfter (c :: w) prev = prevAfter w (some c) := by
  cases w with
  | nil => rfl
  | cons d w' =>
    unfold prevAfter
    rw [List.getLast?_cons_cons]
    cases hgl : (d :: w').getLast? with
    | none => exact absurd (List.getLast?_eq_none_iff.1 hgl) (by simp)
    | some e => rfl

/-- The scanner copies a word-character chunk when no match starts at its
head. -/
theorem subKwF_copy_word {kw : List Char} :
    ∀ {w : List Char}, (∀ c ∈ w, isWordCh c = true) →
    ∀ (fuel : Nat) (prev : Option Char) (r : List Char),
      (prevBoundary prev = true → tryMatchPair kw (w ++ r) = none) →
      subKwF kw (w.length + fuel) prev (w ++ r) =
        w ++ subKwF kw fuel (prevAfter w prev) r := by
  intro w
  induction w with
  | nil =>
    intro _ fuel prev r _
    simp [prevAfter]
  | cons c w' ih =>
    intro hw fuel prev r h
    have hlen : (c :: w').length + fuel = (w'.length + fuel) + 1 := by
      simp only [List.length_cons]
      omega
    rw [hlen]
    have hstep : subKwF kw (w'.length + fuel + 1) prev (c :: (w' ++ r)) =
        c :: subKwF kw (w'.length + fuel) (some c) (w' ++ r) := by
      by_cases hb : prevBoundary prev = true
      · exact subKwF_cons_nomatch hb (h hb)
      · exact subKwF_cons_nb (by simpa using hb)
    rw [List.cons_append, hstep,
      ih (fun d hd => hw d (by simp [hd])) fuel (some c) r
        (fun hcontra => absurd hcontra (by simp [prevBoundary, hw c (by simp)])),
      prevAfter_cons]
    rfl

/-- The scanner leaves a rendering unchanged when no two adjacent tokens are
both case variants of the keyword. -/
theorem subKwF_render {kw : List Char} (hkw : kwSpec kw) :
    ∀ (ts : List (List Char)), tokensGood ts →
      List.Chain' (fun a b => ¬(lowerW a = kw ∧ lowerW b = kw)) ts →
      ∀ (fuel : Nat) (prev : Option Char), (renderWords ts).length ≤ fuel →
      subKwF kw fuel prev (renderWords ts) = renderWords ts := by
  intro ts
  induction ts with
  | nil =>
    intro _ _ fuel prev _
    exact subKwF_nil kw fuel prev
  | cons t ts ih =>
    intro hg hch fuel prev hf
    have ht := (hg t (by simp)).1
    have htw : ∀ c ∈ t, isWordCh c = true := fun c hc =>
      alnum_word ((hg t (by simp)).2 c hc)
    have hg' : tokensGood ts := fun u hu => hg u (by simp [hu])
    have hnm : tryMatchPair kw (renderWords (t :: ts)) = none := by
      apply tryMatch_render_none hkw hg
      rintro ⟨hlt, t₂, ts'', hts, hlt2⟩
      subst hts
      rw [List.chain'_cons'] at hch
      exact hch.1 t₂ rfl ⟨hlt, hlt2⟩
    cases ts with
    | nil =>
      have hr : renderWords [t] = t ++ [] := by simp [renderWords]
      rw [hr] at hnm hf ⊢
      have hfe : fuel = t.length + (fuel - t.length) := by
        simp only [List.length_append, List.length_nil] at hf
        omega
      rw [hfe, subKwF_copy_word htw _ _ _ (fun _ => hnm), subKwF_nil]
    | cons t₂ ts'' =>
      have hrc : renderWords (t :: t₂ :: ts'') =
          t ++ ' ' :: renderWords (t₂ :: ts'') :=
        renderWords_cons t (t₂ :: ts'') (by simp)
      rw [hrc] at hnm hf ⊢
      have hfe : fuel = t.length + (fuel - t.length) := by
        simp only [List.length_append, List.length_cons] at hf
        omega
      rw [hfe, subKwF_copy_word htw _ _ _ (fun _ => hnm)]
      congr 1
      have hpb : prevBoundary (prevAfter t prev) = false := by
        cases hgl : t.getLast? with
        | none => exact absurd (List.getLast?_eq_none_iff.1 hgl) ht
        | some d =>
          have hdm : d ∈ t.getLast? := by
            rw [hgl]
            rfl
          obtain ⟨hne, heq⟩ := List.mem_getLast?_eq_getLast hdm
          have hd : d ∈ t := heq ▸ List.getLast_mem hne
          unfold prevAfter
          rw [hgl]
          simp [prevBoundary, htw d hd]
      obtain ⟨k, hk⟩ : ∃ k, fuel - t.length = k + 1 := by
        refine ⟨fuel - t.length - 1, ?_⟩
        simp only [List.length_append, List.length_cons] at hf
        omega
      rw [hk, subKwF_cons_nb hpb]
      congr 1
      rw [List.chain'_cons'] at hch
      apply ih hg' hch.2 k (some ' ')
      simp only [List.length_append, List.length_cons] at hf
      omega

/-- Skip-free word lists contain no adjacent connective pair. -/
theorem skipFree_noPair {ts : List (List Char)} (h : skipFree ts) {kw : List Char}
    (hconn : kw ∈ connectiveWords) :
    List.Chain' (fun a b => ¬(lowerW a = kw ∧ lowerW b = kw)) ts := by
  apply List.Chain'.imp ?_ h
  rintro a b hab ⟨ha, hb⟩
  have htrue : skipDup a b = true := by
    simp only [skipDup, Bool.and_eq_true, Bool.or_eq_true, decide_eq_true_eq]
    exact ⟨by rw [ha, hb], Or.inr (by rw [hb]; exact hconn)⟩
  rw [htrue] at hab
  exact absurd hab (by simp)

/-- `dropWhile` skips over a fully satisfying chunk. -/
theorem dropWhile_append_all {p : Char → Bool} {a b : List Char}
    (h : ∀ c ∈ a, p c = true) : (a ++ b).dropWhile p = b.dropWhile p := by
  induction a with
  | nil => rfl
  | cons c a' ih =>
    rw [List.cons_append, List.dropWhile_cons, if_pos (h c (by simp))]
    exact ih (fun d hd => h d (by simp [hd]))

/-- `dropWhile` that stops inside the first chunk ignores the second. -/
theorem dropWhile_append_pos {p : Char → Bool} {a : List Char} (b : List Char)
    (h : a.dropWhile p ≠ []) : (a ++ b).dropWhile p = a.dropWhile p ++ b := by
  induction a with
  | nil => simp [List.dropWhile] at h
  | cons c a' ih =>
    by_cases hc : p c = true
    · have hc2 : List.dropWhile p (c :: a') = List.dropWhile p a' := by
        rw [List.dropWhile_cons, if_pos hc]
      rw [List.cons_append, List.dropWhile_cons, if_pos hc, hc2]
      rw [hc2] at h
      exact ih h
    · rw [List.cons_append, List.dropWhile_cons, if_neg hc,
        List.dropWhile_cons, if_neg hc]
      rfl

/-- Dropping the non-space run of a list containing a space exposes the
space. -/
theorem dropWhile_space {x : List Char} (h : ' ' ∈ x) :
    ∃ x', x.dropWhile (fun c => c != ' ') = ' ' :: x' := by
  induction x with
  | nil => simp at h
  | cons c rest ih =>
    by_cases hc : c = ' '
    · subst hc
      exact ⟨rest, by simp [List.dropWhile]⟩
    · rw [List.dropWhile_cons, if_pos (by simp [hc])]
      apply ih
      rcases List.mem_cons.1 h with h1 | h1
      · exact absurd h1.symm hc
      · exact h1

/-- `rsplitKeep` on a space-free list is the identity. -/
theorem rsplitKeep_no_space {p : List Char} (h : ' ' ∉ p) : rsplitKeep p = p := by
  unfold rsplitKeep
  rw [if_neg h]

/-- `rsplitKeep` cuts at the final space. -/
theorem rsplitKeep_last {a b : List Char} (hb : ' ' ∉ b) :
    rsplitKeep (a ++ ' ' :: b) = a := by
  unfold rsplitKeep
  rw [if_pos (List.mem_append_right a (by simp))]
  rw [List.reverse_append, List.reverse_cons]
  have h1 : ∀ c ∈ b.reverse, (c != ' ') = true := by
    intro c hc
    simp only [bne_iff_ne, ne_eq]
    intro he
    subst he
    exact hb (List.mem_reverse.1 hc)
  rw [List.append_assoc, dropWhile_append_all h1]
  rw [List.singleton_append, List.dropWhile_cons, if_neg (by simp)]
  simp

/-- `rsplitKeep` over an earlier chunk recurses into a space-containing
tail. -/
theorem rsplitKeep_append_sep {a q : List Char} (hq : ' ' ∈ q) :
    rsplitKeep (a ++ ' ' :: q) = a ++ ' ' :: rsplitKeep q := by
  unfold rsplitKeep
  rw [if_pos (List.mem_append_right a (by simp)), if_pos hq]
  obtain ⟨x', hx⟩ := dropWhile_space (List.mem_reverse.2 hq)
  rw [List.reverse_append, List.reverse_cons, List.append_assoc,
    dropWhile_append_pos _ (by rw [hx]; simp), hx]
  simp

/-- `dropWhile` never lengthens a list. -/
theorem dropWhile_length_le (p : Char → Bool) (l : List Char) :
    (l.dropWhile p).length ≤ l.length := by
  induction l with
  | nil => simp [List.dropWhile]
  | cons c l' ih =>
    rw [List.dropWhile_cons]
    by_cases hc : p c = true
    · rw [if_pos hc]
      exact Nat.le_succ_of_le ih
    · rw [if_neg hc]

/-- `rsplitKeep` never lengthens its input. -/
theorem rsplitKeep_length (p : List Char) : (rsplitKeep p).length ≤ p.length := by
  unfold rsplitKeep
  by_cases h : ' ' ∈ p
  · rw [if_pos h]
    have h1 := dropWhile_length_le (fun c => c != ' ') p.reverse
    simp only [List.length_reverse, List.length_drop] at *
    omega
  · rw [if_neg h]

/-- Cutting a rendering at `n` characters and dropping past the last space
yields a token-prefix rendering (when the cut contains a space) or a prefix
of the first token (when it does not). -/
theorem truncChar {ts : List (List Char)} (hg : tokensGood ts) :
    ∀ n, 0 < n → ts ≠ [] →
      (' ' ∈ (renderWords ts).take n →
        ∃ j, 1 ≤ j ∧
          rsplitKeep ((renderWords ts).take n) = renderWords (ts.take j)) ∧
      (' ' ∉ (renderWords ts).take n →
        ∃ t₁ rest, ts = t₁ :: rest ∧ (renderWords ts).take n = t₁.take n) := by
  induction ts with
  | nil => intro n _ hne; exact absurd rfl hne
  | cons t ts' ih =>
    intro n hn _
    have hta := (hg t (by simp)).2
    have hsp_t : ∀ m, ' ' ∉ t.take m := by
      intro m hmem
      have := hta ' ' (List.mem_of_mem_take hmem)
      exact absurd this (by decide)
    cases ts' with
    | nil =>
      constructor
      · intro hsp
        exact absurd hsp (by simpa [renderWords] using hsp_t n)
      · intro _
        exact ⟨t, [], rfl, rfl⟩
    | cons t₂ ts'' =>
      have hg' : tokensGood (t₂ :: ts'') := fun u hu => hg u (List.mem_cons_of_mem t hu)
      have hrc : renderWords (t :: t₂ :: ts'') =
          t ++ ' ' :: renderWords (t₂ :: ts'') :=
        renderWords_cons t (t₂ :: ts'') (by simp)
      by_cases hnt : n ≤ t.length
      · have htake : (renderWords (t :: t₂ :: ts'')).take n = t.take n := by
          rw [hrc, List.take_append_of_le_length hnt]
        constructor
        · intro hsp
          rw [htake] at hsp
          exact absurd hsp (hsp_t n)
        · intro _
          exact ⟨t, t₂ :: ts'', rfl, htake⟩
      · have hm : ∃ m, n = t.length + (m + 1) := ⟨n - t.length - 1, by omega⟩
        obtain ⟨m, rfl⟩ := hm
        have htake : (renderWords (t :: t₂ :: ts'')).take (t.length + (m + 1)) =
            t ++ ' ' :: (renderWords (t₂ :: ts'')).take m := by
          rw [hrc, List.take_append, List.take_succ_cons]
        constructor
        · intro _
          rw [htake]
          by_cases hq : ' ' ∈ (renderWords (t₂ :: ts'')).take m
          · have hm0 : 0 < m := by
              cases m with
              | zero => simp at hq
              | succ k => omega
            obtain ⟨j, hj1, hj2⟩ := (ih hg' m hm0 (by simp)).1 hq
            refine ⟨j + 1, by omega, ?_⟩
            rw [rsplitKeep_append_sep hq, hj2]
            have hne : (t₂ :: ts'').take j ≠ [] := by
              cases j with
              | zero => omega
              | succ k => simp
            rw [List.take_succ_cons, renderWords_cons t ((t₂ :: ts'').take j) hne]
          · refine ⟨1, le_refl 1, ?_⟩
            rw [rsplitKeep_last hq]
            rfl
        · intro hsp
          rw [htake] at hsp
          exact absurd (List.mem_append_right t (by simp)) hsp

/-- Characters of `dropWhile` output come from the input. -/
theorem dropWhile_mem {p : Char → Bool} {l : List Char} {c : Char}
    (h : c ∈ l.dropWhile p) : c ∈ l := by
  induction l with
  | nil => simp [List.dropWhile] at h
  | cons d l' ih =>
    rw [List.dropWhile_cons] at h
    by_cases hd : p d = true
    · rw [if_pos hd] at h
      exact List.mem_cons_of_mem d (ih h)
    · rw [if_neg hd] at h
      exact h

/-- Characters of the whitespace collapse are spaces or input characters. -/
theorem collapseWsAux_chars {l : List Char} :
    ∀ {b : Bool} {c : Char}, c ∈ collapseWsAux b l → c = ' ' ∨ c ∈ l := by
  induction l with
  | nil => intro b c h; simp [collapseWsAux] at h
  | cons d l' ih =>
    intro b c h
    by_cases hd : isWsCh d = true
    · cases b with
      | false =>
        have hstep : collapseWsAux false (d :: l') = ' ' :: collapseWsAux true l' := by
          simp [collapseWsAux, hd]
        rw [hstep] at h
        rcases List.mem_cons.1 h with rfl | h1
        · exact Or.inl rfl
        · rcases ih h1 with h2 | h2
          · exact Or.inl h2
          · exact Or.inr (List.mem_cons_of_mem d h2)
      | true =>
        have hstep : collapseWsAux true (d :: l') = collapseWsAux true l' := by
          simp [collapseWsAux, hd]
        rw [hstep] at h
        rcases ih h with h2 | h2
        · exact Or.inl h2
        · exact Or.inr (List.mem_cons_of_mem d h2)
    · rw [collapseWsAux_cons_not_ws (by simpa using hd)] at h
      rcases List.mem_cons.1 h with rfl | h1
      · exact Or.inr (by simp)
      · rcases ih h1 with h2 | h2
        · exact Or.inl h2
        · exact Or.inr (List.mem_cons_of_mem d h2)

/-- Characters of the strip come from the input. -/
theorem trimChars_chars {l : List Char} {c : Char} (h : c ∈ trimChars l) : c ∈ l := by
  unfold trimChars at h
  have h1 := List.mem_reverse.1 h
  have h2 := dropWhile_mem h1
  have h3 := List.mem_reverse.1 h2
  exact dropWhile_mem h3

/-- Characters of the scanner's output are keyword characters or input
characters. -/
theorem subKwF_chars {kw : List Char} :
    ∀ (fuel : Nat) (prev : Option Char) (l : List Char) (c : Char),
      c ∈ subKwF kw fuel prev l → c ∈ kw ∨ c ∈ l := by
  intro fuel
  induction fuel with
  | zero => intro prev l c h; exact Or.inr h
  | succ fuel ih =>
    intro prev l c h
    cases l with
    | nil =>
      rw [subKwF_nil] at h
      simp at h
    | cons d rest =>
      by_cases hb : prevBoundary prev = true
      · cases hm : tryMatchPair kw (d :: rest) with
        | some s3 =>
          rw [subKwF_cons_match hb hm] at h
          rcases List.mem_append.1 h with h1 | h1
          · exact Or.inl h1
          · rcases ih _ _ _ h1 with h2 | h2
            · exact Or.inl h2
            · exact Or.inr ((tryMatchPair_spec hm).1 c h2)
        | none =>
          rw [subKwF_cons_nomatch hb hm] at h
          rcases List.mem_cons.1 h with rfl | h1
          · exact Or.inr (by simp)
          · rcases ih _ _ _ h1 with h2 | h2
            · exact Or.inl h2
            · exact Or.inr (List.mem_cons_of_mem d h2)
      · rw [subKwF_cons_nb (by simpa using hb)] at h
        rcases List.mem_cons.1 h with rfl | h1
        · exact Or.inr (by simp)
        · rcases ih _ _ _ h1 with h2 | h2
          · exact Or.inl h2
          · exact Or.inr (List.mem_cons_of_mem d h2)

/-- The truncation of a rendering is again a rendering of well-formed,
skip-free tokens, of length at most 200. -/
theorem truncate200_render {ts : List (List Char)} (hg : tokensGood ts)
    (hsf : skipFree ts) :
    ∃ ts₀, truncate200 (renderWords ts) = renderWords ts₀ ∧ tokensGood ts₀ ∧
      skipFree ts₀ ∧
      ((renderWords ts₀).length ≤ 200 ∨ truncate200 (renderWords ts) = renderWords ts) := by
  by_cases hlen : 200 < (renderWords ts).length
  · have hne : ts ≠ [] := by
      intro he
      subst he
      simp [renderWords] at hlen
    unfold truncate200
    rw [if_pos hlen]
    by_cases hsp : ' ' ∈ (renderWords ts).take 200
    · obtain ⟨j, hj1, hj2⟩ := (truncChar hg 200 (by norm_num) hne).1 hsp
      refine ⟨ts.take j, hj2, fun u hu => hg u (List.mem_of_mem_take hu), ?_, ?_⟩
      · exact List.Chain'.take hsf j
      · left
        rw [← hj2]
        have h1 := rsplitKeep_length ((renderWords ts).take 200)
        have h2 : ((renderWords ts).take 200).length ≤ 200 := by
          simp [List.length_take]
        omega
    · obtain ⟨t₁, rest, hts, heq⟩ := (truncChar hg 200 (by norm_num) hne).2 hsp
      refine ⟨[t₁.take 200], ?_, ?_, ?_, ?_⟩
      · rw [rsplitKeep_no_space hsp, heq]
        rfl
      · intro u hu
        simp only [List.mem_singleton] at hu
        subst hu
        constructor
        · rw [ne_eq, List.take_eq_nil_iff]
          push_neg
          exact ⟨by norm_num, (hg t₁ (by simp [hts])).1⟩
        · intro c hc
          exact (hg t₁ (by simp [hts])).2 c (List.mem_of_mem_take hc)
      · simp [skipFree]
      · left
        show (t₁.take 200).length ≤ 200
        simp [List.length_take]
  · refine ⟨ts, ?_, hg, hsf, Or.inr ?_⟩ <;>
      · unfold truncate200
        rw [if_neg hlen]

/-- The full cleanup pass is the identity on a rendering of well-formed,
skip-free tokens of length at most 200. -/
theorem cleanChars_render {ts : List (List Char)} (hg : tokensGood ts)
    (hsf : skipFree ts) (hlen : (renderWords ts).length ≤ 200) :
    cleanChars (renderWords ts) = renderWords ts := by
  have hgood : ∀ c ∈ renderWords ts, goodCh c := by
    intro c hc
    rcases renderWords_chars hc with rfl | ⟨t, ht, hct⟩
    · exact Or.inr rfl
    · exact Or.inl ((hg t ht).2 c hct)
  unfold cleanChars
  rw [filter_invalid_id hgood, collapseWsAux_render hg, trimChars_render hg]
  have hsub : ∀ kw, kw ∈ connectiveWords → kwSpec kw →
      subKw kw (renderWords ts) = renderWords ts := by
    intro kw hconn hkw
    exact subKwF_render hkw ts hg (skipFree_noPair hsf hconn) _ none (le_refl _)
  unfold fixDuplications
  rw [hsub "re".data (by decide) ⟨by decide, by decide⟩,
    hsub "with".data (by decide) ⟨by decide, by decide⟩,
    hsub "and".data (by decide) ⟨by decide, by decide⟩,
    splitWords_render hg, dedupWords_eq_self hsf]
  unfold truncate200
  rw [if_neg (by omega)]

set_option maxHeartbeats 1000000 in
/-- C7 (amended): filename cleanup is idempotent on inputs made of ASCII
letters, digits and spaces.  (In general it is not idempotent — see the
counterexample — because the connective-collapse regex does not rescan its
own replacements.) -/
theorem cleanFilename_idempotent_alnum (s : String)
    (h : ∀ c ∈ s.data, isAlnumCh c = true ∨ c = ' ') :
    cleanFilename (cleanFilename s) = cleanFilename s := by
  suffices hsuf : cleanChars (cleanChars s.data) = cleanChars s.data by
    show String.mk (cleanChars (String.mk (cleanChars s.data)).data) =
      String.mk (cleanChars s.data)
    exact congrArg String.mk hsuf
  -- structure of the first pass
  have hgood : ∀ c ∈ s.data, goodCh c := h
  set l1 := (s.data).filter (fun c => !(decide (c ∈ invalidChars))) with hl1
  have hg1 : ∀ c ∈ l1, goodCh c := by
    intro c hc
    rw [hl1] at hc
    exact hgood c (List.mem_of_mem_filter hc)
  set l2 := collapseWsAux false l1 with hl2
  have hg2 : ∀ c ∈ l2, goodCh c := by
    intro c hc
    rw [hl2] at hc
    rcases collapseWsAux_chars hc with rfl | h2
    · exact Or.inr rfl
    · exact hg1 c h2
  set l3 := trimChars l2 with hl3
  have hg3 : ∀ c ∈ l3, goodCh c := fun c hc => hg2 c (trimChars_chars (hl3 ▸ hc))
  have hkwgood : ∀ (kw l : List Char), (∀ c ∈ kw, goodCh c) → (∀ c ∈ l, goodCh c) →
      ∀ c ∈ subKw kw l, goodCh c := by
    intro kw l hkw hl c hc
    rcases subKwF_chars _ _ _ _ hc with h1 | h1
    · exact hkw c h1
    · exact hl c h1
  set l4 := subKw "re".data l3 with hl4
  have hg4 : ∀ c ∈ l4, goodCh c :=
    hkwgood _ _ (by intro c hc; fin_cases hc <;> exact Or.inl (by decide)) hg3
  set l5 := subKw "with".data l4 with hl5
  have hg5 : ∀ c ∈ l5, goodCh c :=
    hkwgood _ _ (by intro c hc; fin_cases hc <;> exact Or.inl (by decide)) hg4
  set l6 := subKw "and".data l5 with hl6
  have hg6 : ∀ c ∈ l6, goodCh c :=
    hkwgood _ _ (by intro c hc; fin_cases hc <;> exact Or.inl (by decide)) hg5
  set ts := splitWords l6 with hts
  have hgt : tokensGood ts := hts ▸ splitWords_good hg6
  set ts' := dedupWords ts with hts'
  have hgt' : tokensGood ts' := by
    intro u hu
    exact hgt u ((dedupWords_sublist ts).mem (hts' ▸ hu))
  have hsf' : skipFree ts' := hts' ▸ dedupWords_skipFree ts
  have hpass1 : cleanChars s.data = truncate200 (renderWords ts') := by
    unfold cleanChars fixDuplications
    rw [← hl1, ← hl2, ← hl3, ← hl4, ← hl5, ← hl6, ← hts, ← hts']
  obtain ⟨ts₀, htr, hg₀, hsf₀, hor⟩ := truncate200_render hgt' hsf'
  rcases hor with hlen₀ | hid
  · rw [hpass1, htr]
    exact cleanChars_render hg₀ hsf₀ hlen₀
  · -- the untruncated case: the rendering itself is at most 200 long
    have hlen' : (renderWords ts').length ≤ 200 := by
      by_contra hcon
      push_neg at hcon
      unfold truncate200 at hid
      rw [if_pos hcon] at hid
      have h1 := rsplitKeep_length ((renderWords ts').take 200)
      have h2 : ((renderWords ts').take 200).length ≤ 200 := by
        simp [List.length_take]
      rw [hid] at h1
      omega
    rw [hpass1, htr]
    exact cleanChars_render hg₀ hsf₀ (by rw [← htr, hid]; exact hlen')

/-- C7 (witness): the amended idempotence applied to a representative
letters-and-spaces input containing connective and name duplications. -/
theorem cleanFilename_idempotent_alnum_witness :
    cleanFilename (cleanFilename "Call with with Bob Bob re GST") =
      cleanFilename "Call with with Bob Bob re GST" :=
  cleanFilename_idempotent_alnum "Call with with Bob Bob re GST" (by decide)

end Transcription
